import Mathlib

/-!
Verification of the console-to-logger migration script
(`migrate-console-to-logger.py`, Air Niugini PMS).

The script is a batch text rewriter: an import inserter
(`add_logger_import`), a pattern rewriter (`migrate_console_statements`,
emoji-prefix stripping followed by nine ordered regex substitutions), and a
per-file driver (`process_file` / `main`).  Text is modelled as `List Char`;
Python's `str.replace` and `re.sub` are modelled by a single left-to-right
scanner `subst` over anchored matchers that reproduce the greedy,
backtracking semantics of the concrete patterns used by the script.  The
filesystem is modelled as a partial map from paths to file contents.
-/

namespace MigrateScript

/-- Text, as a list of characters. -/
abbrev Str := List Char

/-- Newline character. -/
def nl : Char := Char.ofNat 10

/-- Single-quote character (ASCII 39). -/
def sq : Char := Char.ofNat 39

/-- Backtick character (ASCII 96). -/
def bt : Char := Char.ofNat 96

/-- An anchored matcher: given the text at the current scan position, either
fail, or return the replacement text and the remainder of the input after the
matched (consumed) part. -/
def Matcher := Str → Option (Str × Str)

/-- Left-to-right scan with fuel: at each position try the matcher; on a
match, emit the replacement and continue after the consumed text; otherwise
copy one character.  This is the common semantics of Python's `str.replace`
and `re.sub` (leftmost, non-overlapping matches). -/
def substFuel (m : Matcher) : Nat → Str → Str
  | 0, s => s
  | _ + 1, [] => []
  | fuel + 1, c :: rest =>
    match m (c :: rest) with
    | some (r, rem) => r ++ substFuel m fuel rem
    | none => c :: substFuel m fuel rest

/-- Apply the matcher-based substitution over a whole text. -/
def subst (m : Matcher) (s : Str) : Str := substFuel m s.length s

/-- Matcher for a literal pattern (Python `str.replace`): if `pat` starts
here, replace it by `rep`. -/
def litMatcher (pat rep : Str) : Matcher := fun s =>
  if pat.isPrefixOf s then some (rep, s.drop pat.length) else none

/-- Greedy match of a `[^X]+`-style group followed by a literal `tail`.
`rg` is the reversed candidate group (initially the maximal run), `rest` the
text after it.  Backtracking shortens the group from the right, longest
first; the group must stay nonempty.  Returns the group and the remainder
after `tail`. -/
def greedyA (tail : Str) : Str → Str → Option (Str × Str)
  | [], _ => none
  | c :: rg, rest =>
    if tail.isPrefixOf rest then some ((c :: rg).reverse, rest.drop tail.length)
    else greedyA tail rg (c :: rest)

/-- Matcher for patterns of the shape `opener ([^X]+) tail` (one captured
group, greedy): patterns 1, 2, 4, 5 and 9 of the script.  `ok` is the
character class of the group, `rep` builds the replacement from the group. -/
def matchA (opener : Str) (ok : Char → Bool) (tail : Str) (rep : Str → Str) : Matcher :=
  fun s =>
    if opener.isPrefixOf s then
      let s1 := s.drop opener.length
      let run := s1.takeWhile ok
      match greedyA tail run.reverse (s1.drop run.length) with
      | some (g, rem) => some (rep g, rem)
      | none => none
    else none

/-- Greedy two-group backtracking for patterns of the shape
`opener ([^X]+) mid ([^Y]+) tail` (patterns 3, 7 and 8): for each candidate
first group (longest first) at which `mid` matches, try the second
group/tail; on failure keep shortening the first group. -/
def greedyB (mid : Str) (ok2 : Char → Bool) (tail : Str) :
    Str → Str → Option (Str × Str × Str)
  | [], _ => none
  | c :: rg, rest =>
    if mid.isPrefixOf rest then
      let s2 := rest.drop mid.length
      let run2 := s2.takeWhile ok2
      match greedyA tail run2.reverse (s2.drop run2.length) with
      | some (g2, rem) => some ((c :: rg).reverse, g2, rem)
      | none => greedyB mid ok2 tail rg (c :: rest)
    else greedyB mid ok2 tail rg (c :: rest)

/-- Matcher for the two-group patterns. -/
def matchB (opener : Str) (ok1 : Char → Bool) (mid : Str) (ok2 : Char → Bool)
    (tail : Str) (rep : Str → Str → Str) : Matcher := fun s =>
  if opener.isPrefixOf s then
    let s1 := s.drop opener.length
    let run := s1.takeWhile ok1
    match greedyB mid ok2 tail run.reverse (s1.drop run.length) with
    | some (g1, g2, rem) => some (rep g1 g2, rem)
    | none => none
  else none

/-- Character class `[^']`. -/
def okQ (c : Char) : Bool := !(c == sq)

/-- Character class `[^)]`. -/
def okP (c : Char) : Bool := !(c == ')')

/-- Character class for pattern 6's group. -/
def okQB (c : Char) : Bool := !(c == sq) && !(c == bt)

/-- Pattern 1: `console\.error\('([^']+):', error\);`. -/
def p1 : Matcher :=
  matchA "console.error('".toList okQ ":', error);".toList
    (fun g => "logger.error('".toList ++ g ++
      "', error instanceof Error ? error : new Error(String(error)));".toList)

/-- Pattern 2: `console\.error\('([^']+)', error\);`. -/
def p2 : Matcher :=
  matchA "console.error('".toList okQ "', error);".toList
    (fun g => "logger.error('".toList ++ g ++
      "', error instanceof Error ? error : new Error(String(error)));".toList)

/-- Pattern 3: `console\.log\('([^']+) successfully:', ([^)]+)\);`. -/
def p3 : Matcher :=
  matchB "console.log('".toList okQ " successfully:', ".toList okP ");".toList
    (fun g1 g2 => "logger.info('".toList ++ g1 ++
      " successfully', \x7b data: ".toList ++ g2 ++ " \x7d);".toList)

/-- Pattern 4: `console\.log\('([^']+) successfully'\);`. -/
def p4 : Matcher :=
  matchA "console.log('".toList okQ " successfully');".toList
    (fun g => "logger.info('".toList ++ g ++ " successfully');".toList)

/-- Pattern 5: `console\.log\('([^']+)\.\.\.'\);`. -/
def p5 : Matcher :=
  matchA "console.log('".toList okQ "...');".toList
    (fun g => "logger.debug('".toList ++ g ++ "');".toList)

/-- Pattern 6: ``console\.log\(([`'])([^`']+)\1\);``. -/
def p6 : Matcher := fun s =>
  if "console.log(".toList.isPrefixOf s then
    match s.drop 12 with
    | [] => none
    | c :: s1 =>
      if c == sq || c == bt then
        let run := s1.takeWhile okQB
        match greedyA [c, ')', ';'] run.reverse (s1.drop run.length) with
        | some (g, rem) => some ("logger.debug('".toList ++ g ++ "');".toList, rem)
        | none => none
      else none
  else none

/-- Pattern 7: `console\.log\('([^']+)', ([^)]+)\);`. -/
def p7 : Matcher :=
  matchB "console.log('".toList okQ "', ".toList okP ");".toList
    (fun g1 g2 => "logger.debug('".toList ++ g1 ++ "', ".toList ++ g2 ++ ");".toList)

/-- Pattern 8: `console\.warn\('([^']+)', ([^)]+)\);`. -/
def p8 : Matcher :=
  matchB "console.warn('".toList okQ "', ".toList okP ");".toList
    (fun g1 g2 => "logger.warn('".toList ++ g1 ++ "', ".toList ++ g2 ++ ");".toList)

/-- Pattern 9: `console\.warn\('([^']+)'\);`. -/
def p9 : Matcher :=
  matchA "console.warn('".toList okQ "');".toList
    (fun g => "logger.warn('".toList ++ g ++ "');".toList)

/-- The emoji markers stripped by the script, in order (note `⚠️ ` carries a
trailing space in the source, exactly as in the Python list). -/
def emojis : List Str :=
  ["❌".toList, "✅".toList, "🚫".toList, "📝".toList, "🔄".toList, "🔧".toList,
   "🧹".toList, "📊".toList, "⚠️ ".toList, "🗑️".toList, "🔐".toList]

/-- One emoji's two replace passes: `'{emoji} ` → `'` then `` `{emoji} `` → `` ` ``. -/
def stripEmoji (e : Str) (s : Str) : Str :=
  subst (litMatcher (bt :: (e ++ [' '])) [bt])
    (subst (litMatcher (sq :: (e ++ [' '])) [sq]) s)

/-- All emoji-stripping passes, in the script's order. -/
def stripEmojis (s : Str) : Str := emojis.foldl (fun acc e => stripEmoji e acc) s

/-- `migrate_console_statements`: emoji stripping, then the nine regex
substitutions in source order. -/
def migrate_console_statements (s : Str) : Str :=
  subst p9 (subst p8 (subst p7 (subst p6 (subst p5 (subst p4 (subst p3
    (subst p2 (subst p1 (stripEmojis s)))))))))

/-- The logger import line inserted by `add_logger_import`. -/
def importLine : Str := "import \x7b logger \x7d from '@/lib/logger';".toList

/-- Substring test (Python's `in` on strings): does `pat` occur as a
contiguous substring? -/
def isSubstr (pat : Str) : Str → Bool
  | [] => pat.isPrefixOf ([] : Str)
  | c :: rest => pat.isPrefixOf (c :: rest) || isSubstr pat rest

/-- Python `content.split('\n')`. -/
def pySplitLines : Str → List Str
  | [] => [[]]
  | c :: rest =>
    if c == nl then [] :: pySplitLines rest
    else
      match pySplitLines rest with
      | [] => [[c]]
      | l :: ls => (c :: l) :: ls

/-- Python `'\n'.join(lines)`. -/
def pyJoin : List Str → Str
  | [] => []
  | [l] => l
  | l :: l' :: ls => l ++ nl :: pyJoin (l' :: ls)

/-- The code points Python's `str.strip()` treats as whitespace (the
characters `c` with `c.isspace()` true): TAB through CR, the information
separators U+001C–U+001F, SPACE, NEL U+0085, NO-BREAK SPACE U+00A0, OGHAM
SPACE MARK U+1680, the typographic spaces U+2000–U+200A, LINE SEPARATOR
U+2028, PARAGRAPH SEPARATOR U+2029, NARROW NO-BREAK SPACE U+202F, MEDIUM
MATHEMATICAL SPACE U+205F and IDEOGRAPHIC SPACE U+3000. -/
def pyWsCodes : List Nat :=
  [9, 10, 11, 12, 13, 28, 29, 30, 31, 32, 133, 160, 5760, 8192, 8193, 8194,
   8195, 8196, 8197, 8198, 8199, 8200, 8201, 8202, 8232, 8233, 8239, 8287,
   12288]

/-- Python `str` whitespace, as stripped by `str.strip()`. -/
def pyWs (c : Char) : Bool := pyWsCodes.contains c.toNat

/-- Python `line.strip()`. -/
def pyStrip (s : Str) : Str :=
  ((s.dropWhile pyWs).reverse.dropWhile pyWs).reverse

/-- `line.strip().startswith('import ')`. -/
def isImportPrefix (l : Str) : Bool := "import ".toList.isPrefixOf (pyStrip l)

/-- Index of the last line whose stripped content starts with `import `
(the script's `last_import_idx`, `none` standing for `-1`). -/
def lastImportIdx : List Str → Option Nat
  | [] => none
  | l :: ls =>
    match lastImportIdx ls with
    | some i => some (i + 1)
    | none => if isImportPrefix l then some 0 else none

/-- Python `list.insert`: insert at position `n`, appending when `n` is past
the end. -/
def pyInsert {α : Type} (n : Nat) (x : α) : List α → List α
  | l =>
    match n, l with
    | 0, l => x :: l
    | _ + 1, [] => [x]
    | n + 1, a :: l => a :: pyInsert n x l

/-- `add_logger_import`: return the text unchanged when the import line is
already present as a substring; otherwise insert it after the last import
line, or return the text unchanged (up to split/join) when there is none. -/
def add_logger_import (content : Str) : Str :=
  if isSubstr importLine content then content
  else
    let lines := pySplitLines content
    match lastImportIdx lines with
    | some i => pyJoin (pyInsert (i + 1) importLine lines)
    | none => pyJoin lines

/-- The full per-file text transform of `process_file`: import insertion,
then pattern rewriting. -/
def transform (c : Str) : Str := migrate_console_statements (add_logger_import c)

/-- The filesystem, as a partial map from paths to file contents. -/
def FS := Str → Option Str

/-- Writing a file (`open(path, 'w')` + `write`): create or overwrite. -/
def FS.write (fs : FS) (p : Str) (c : Str) : FS :=
  fun q => if q = p then some c else fs q

/-- The file name: the part of the path after the last `/`. -/
def fileName (p : Str) : Str := (p.reverse.takeWhile (fun c => c != '/')).reverse

/-- Index of the last `.` of a file name, when it marks a suffix (Python
`PurePath.suffix`: a dot at index 0 does not count). -/
def lastDotIdx (name : Str) : Option Nat :=
  match name.reverse.findIdx? (fun c => c == '.') with
  | none => none
  | some j =>
    let i := name.length - 1 - j
    if i = 0 then none else some i

/-- Python `Path.with_suffix`: drop the name's suffix (if any) and append
the new one. -/
def pyWithSuffix (p : Str) (suf : Str) : Str :=
  let name := fileName p
  let dir := p.take (p.length - name.length)
  match lastDotIdx name with
  | none => dir ++ name ++ suf
  | some i => dir ++ name.take i ++ suf

/-- The hardcoded project directory. -/
def PROJECT_DIR : Str :=
  "/Users/skycruzer/Desktop/Fleet Office Management/air-niugini-pms".toList

/-- The fixed list of target files. -/
def FILES_TO_PROCESS : List Str :=
  ["src/lib/leave-service.ts".toList,
   "src/lib/pwa-cache.ts".toList,
   "src/lib/notification-queue.ts".toList,
   "src/lib/dashboard-data.ts".toList,
   "src/lib/disciplinary-service.ts".toList,
   "src/lib/backup-service.ts".toList,
   "src/lib/optimistic-updates.ts".toList,
   "src/lib/pagination-utils.ts".toList,
   "src/lib/audit-log-service.ts".toList,
   "src/lib/task-service.ts".toList,
   "src/lib/email-service.ts".toList]

/-- `file_path.relative_to(PROJECT_DIR)`: drop the project prefix and the
separator. -/
def relTo (p : Str) : Str := p.drop (PROJECT_DIR.length + 1)

/-- Status line `✓ Processed: {rel}`. -/
def processedMsg (p : Str) : Str := "✓ Processed: ".toList ++ relTo p

/-- Status line `- No changes: {rel}`. -/
def noChangesMsg (p : Str) : Str := "- No changes: ".toList ++ relTo p

/-- Status line `✗ Error processing {path}: ...` (the caught exception). -/
def errorMsg (p : Str) : Str := "✗ Error processing ".toList ++ p

/-- Status line `⚠  File not found: {rel}`. -/
def notFoundMsg (rel : Str) : Str := "⚠  File not found: ".toList ++ rel

/-- Result of `process_file`: the returned boolean, the filesystem after the
call, and the status lines printed. -/
structure PFRes where
  ok : Bool
  fs : FS
  log : List Str

/-- `process_file`, with error oracles: `rErr p` means reading `p` raises
(e.g. a permission error), `wErr p` means opening `p` for writing raises.
A missing file raises on read.  Every raise is caught by the function's
`try`/`except`, which prints one error line and returns `False`; the
filesystem keeps whatever writes completed before the raise. -/
def process_file (rErr wErr : Str → Bool) (fs : FS) (path : Str) : PFRes :=
  if rErr path then ⟨false, fs, [errorMsg path]⟩ else
  match fs path with
  | none => ⟨false, fs, [errorMsg path]⟩
  | some content =>
    let c' := transform content
    if c' = content then ⟨false, fs, [noChangesMsg path]⟩
    else
      let bp := pyWithSuffix path ".ts.backup".toList
      if wErr bp then ⟨false, fs, [errorMsg path]⟩ else
      let fs1 := FS.write fs bp content
      if wErr path then ⟨false, fs1, [errorMsg path]⟩ else
      ⟨true, FS.write fs1 path c', [processedMsg path]⟩

/-- Result of the driver: the number of files processed (changed), the final
filesystem, and the status lines printed. -/
structure RunRes where
  count : Nat
  fs : FS
  log : List Str

/-- The driver's loop over a file list: existence check, `process_file`,
counting only changed files, continuing past missing or failing files. -/
def runFiles (rErr wErr : Str → Bool) : List Str → FS → RunRes
  | [], fs => ⟨0, fs, []⟩
  | rel :: rest, fs =>
    let path := PROJECT_DIR ++ '/' :: rel
    if (fs path).isSome then
      let r := process_file rErr wErr fs path
      let rr := runFiles rErr wErr rest r.fs
      ⟨(if r.ok then 1 else 0) + rr.count, rr.fs, r.log ++ rr.log⟩
    else
      let rr := runFiles rErr wErr rest fs
      ⟨rr.count, rr.fs, notFoundMsg rel :: rr.log⟩

/-- Summary line `✅ Migration complete! Processed {n} files`. -/
def summaryMsg (n : Nat) : Str :=
  "✅ Migration complete! Processed ".toList ++ (toString n).toList ++ " files".toList

/-- `main`: banner, the loop over `FILES_TO_PROCESS`, then the summary and
the build reminder.  Total by construction: no per-file error escapes. -/
def main_run (rErr wErr : Str → Bool) (fs : FS) : RunRes :=
  let r := runFiles rErr wErr FILES_TO_PROCESS fs
  ⟨r.count, r.fs,
    ["Starting console → logger migration...".toList,
     "Project: ".toList ++ PROJECT_DIR] ++ r.log ++
    [summaryMsg r.count, "Run 'npm run build' to verify changes".toList]⟩

/-- The absolute paths of the target files, as `main` resolves them. -/
def targetPaths : List Str := FILES_TO_PROCESS.map fun rel => PROJECT_DIR ++ '/' :: rel

/-- Whether a status line reports a processed (changed) file. -/
def isProcessedLine (l : Str) : Bool := "✓ Processed: ".toList.isPrefixOf l

/-- `console.` occurs nowhere in the text. -/
def noConsole (s : Str) : Bool := !(isSubstr "console.".toList s)

/-- The 22 quoted emoji-prefix markers the script strips. -/
def emojiMarkers : List Str :=
  (emojis.map fun e => sq :: (e ++ [' '])) ++ (emojis.map fun e => bt :: (e ++ [' ']))

/-- No quoted emoji-prefix marker occurs in the text. -/
def noEmojiMarker (s : Str) : Bool := emojiMarkers.all fun p => !(isSubstr p s)

/-- The scenario-1 input line `console.error('Failed to save:', error);`. -/
def errLine : Str := "console.error('Failed to save:', error);".toList

/-- Its rewritten form. -/
def errLineR : Str :=
  "logger.error('Failed to save', error instanceof Error ? error : new Error(String(error)));".toList

/-- Does `t`, truncated to what fits inside `S` from position `i`, match the
segment of `S` starting at `i`? -/
def segEq (S : Str) (i : Nat) (t : Str) : Bool :=
  (S.drop i).take (min t.length (S.length - i)) = t.take (min t.length (S.length - i))

/-- No proper nonempty suffix of `pat` is a prefix of `S`: a match of the
literal `pat` that starts left of `S` cannot end inside `S`. -/
def noTailOverlap (pat S : Str) : Bool :=
  (List.range pat.length).all fun k => (k == 0) || (pat.drop (pat.length - k) != S.take k)

/-- At no position inside `S` can `pat` start to match, whatever follows
`S`: each nonempty suffix of `S` disagrees with `pat` within their common
length. -/
def neverMatchAt (pat S : Str) : Bool :=
  (List.range S.length).all fun i =>
    !((S.drop i).isPrefixOf pat) && !(pat.isPrefixOf (S.drop i))

/-- Shield checker for one-group patterns `opener ([^X]+) tail`: a match
starting strictly left of `S` can never end inside `S` (or swallow it).
Conjunct 1: no nonempty suffix of `tail` is a prefix of `S`.  Conjunct 2:
for no `gs ≥ 1` is `S.take gs` all in the class with `tail` (truncated)
following at `gs`.  Conjunct 3: no nonempty proper suffix of `opener` is a
prefix of `S`. -/
def shieldCheckA (opener : Str) (ok : Char → Bool) (tail S : Str) : Bool :=
  ((List.range (tail.length + 1)).all fun k =>
    (k == 0) || (tail.drop (tail.length - k) != S.take k)) &&
  ((List.range (S.length + 1)).all fun gs =>
    (gs == 0) || !((S.take gs).all ok && segEq S gs tail)) &&
  ((List.range opener.length).all fun os =>
    (os == 0) || (opener.drop (opener.length - os) != S.take os))

/-- The two extra conjuncts of the shield checker for two-group patterns
`opener ([^X]+) mid ([^Y]+) tail` (their tail/group-2/opener cases reuse
`shieldCheckA opener ok2 tail S`): no nonempty suffix of `mid` is a prefix
of `S`, and for no `gs ≥ 1` is `S.take gs` all in class 1 with `mid`
(truncated) following at `gs`. -/
def shieldCheckBExtra (ok1 : Char → Bool) (mid S : Str) : Bool :=
  ((List.range (mid.length + 1)).all fun ms =>
    (ms == 0) || (mid.drop (mid.length - ms) != S.take ms)) &&
  ((List.range (S.length + 1)).all fun gs =>
    (gs == 0) || !((S.take gs).all ok1 && segEq S gs mid))

/-- Every successful match consumes a nonempty chunk that does not end in a
newline. -/
def Consumes (m : Matcher) : Prop :=
  ∀ s r rem, m s = some (r, rem) → ∃ w, s = w ++ rem ∧ w ≠ [] ∧ w.getLast? ≠ some nl

/-- A match starting strictly before the protected segment `S` stays
strictly before it: its remainder still carries `S` and the suffix intact. -/
def Shields (m : Matcher) (S : Str) : Prop :=
  ∀ x u r rem, x ≠ [] → m (x ++ S ++ u) = some (r, rem) →
    ∃ w x', x = w ++ x' ∧ rem = x' ++ S ++ u ∧ w ≠ []

/-- The matcher fails at every position inside `S`, whatever follows. -/
def SkipsIn (m : Matcher) (S : Str) : Prop :=
  ∀ t u, t <:+ S → t ≠ [] → m (t ++ u) = none

/-- The matcher, at the start of `S`, matches exactly `S` and replaces it
by `R`, whatever follows. -/
def MatchesAt (m : Matcher) (S R : Str) : Prop :=
  ∀ u, m (S ++ u) = some (R, u)

/-- Conditions on a literal replace pattern that protect a segment `S`: the
pattern is nonempty, does not end in a newline, no nonempty proper suffix of
it starts `S`, it cannot start inside `S`, and it is no longer than `S`. -/
def stripMarkerOk (pat S : Str) : Bool :=
  !(pat == []) && !(pat.getLast? == some nl) && noTailOverlap pat S &&
    neverMatchAt pat S && (pat.length ≤ S.length)

/-- The prefix invariant carried through the scan lemmas: the text left of
the protected segment is empty or ends in a newline. -/
def EndsNl (a : Str) : Prop := a = [] ∨ a.getLast? = some nl

/-- The suffix invariant: the text right of the protected segment is empty
or starts with a newline (the segment sits on a line of its own). -/
def StartsNl (a : Str) : Prop := a = [] ∨ a.head? = some nl

/-! ### Basic facts about prefixes and substrings -/

theorem prefixOf_iff {p s : Str} : p.isPrefixOf s = true ↔ ∃ t, p ++ t = s := by
  rw [ List.isPrefixOf_iff_prefix]
  exact Iff.rfl

theorem isSubstr_iff {pat s : Str} : isSubstr pat s = true ↔ ∃ a b, s = a ++ pat ++ b := by
  induction s with
  | nil =>
    simp only [isSubstr, prefixOf_iff]
    constructor
    · rintro ⟨t, ht⟩
      exact ⟨[], t, ht.symm⟩
    · rintro ⟨a, b, hab⟩
      have ha : a = [] := by
        cases a with
        | nil => rfl
        | cons x xs => simp at hab
      subst ha
      exact ⟨b, by simpa using hab.symm⟩
  | cons c rest ih =>
    simp only [isSubstr, Bool.or_eq_true]
    constructor
    · rintro (h | h)
      · obtain ⟨t, ht⟩ := prefixOf_iff.1 h
        exact ⟨[], t, by simpa using ht.symm⟩
      · obtain ⟨a, b, hab⟩ := ih.1 h
        exact ⟨c :: a, b, by simp [hab]⟩
    · rintro ⟨a, b, hab⟩
      cases a with
      | nil =>
        left
        exact prefixOf_iff.2 ⟨b, by simpa using hab.symm⟩
      | cons x xs =>
        right
        have hab' : c :: rest = x :: (xs ++ pat ++ b) := by simpa using hab
        exact ih.2 ⟨xs, b, (List.cons.inj hab').2⟩

theorem prefixOf_false_of_no_substr {pat s t : Str} (h : isSubstr pat s = false)
    (hsuf : t <:+ s) : pat.isPrefixOf t = false := by
  by_contra hc
  have hp : pat.isPrefixOf t = true := by
    cases hb : pat.isPrefixOf t with
    | true => rfl
    | false => exact absurd hb hc
  obtain ⟨v, hv⟩ := prefixOf_iff.1 hp
  obtain ⟨u, hu⟩ := hsuf
  have : isSubstr pat s = true := isSubstr_iff.2 ⟨u, v, by rw [← hu, ← hv]; simp⟩
  rw [this] at h
  simp at h

/-! ### Facts about split, join, strip and insert -/

theorem pySplitLines_ne_nil (s : Str) : pySplitLines s ≠ [] := by
  cases s with
  | nil => simp [pySplitLines]
  | cons c rest =>
    simp only [pySplitLines]
    split
    · simp
    · cases h : pySplitLines rest <;> simp

theorem pyJoin_pySplitLines (s : Str) : pyJoin (pySplitLines s) = s := by
  induction s with
  | nil => rfl
  | cons c rest ih =>
    simp only [pySplitLines]
    by_cases hc : c == nl
    · rw [if_pos hc]
      cases h : pySplitLines rest with
      | nil => exact absurd h (pySplitLines_ne_nil rest)
      | cons l ls =>
        have hbeq : c = nl := by simpa using hc
        subst hbeq
        simp only [pyJoin]
        rw [← h, ih]
        simp
    · rw [if_neg hc]
      cases h : pySplitLines rest with
      | nil => exact absurd h (pySplitLines_ne_nil rest)
      | cons l ls =>
        cases ls with
        | nil =>
          simp only [pyJoin]
          have : pyJoin [l] = rest := by rw [← h, ih]
          simpa [pyJoin] using congrArg (c :: ·) this
        | cons l' ls' =>
          simp only [pyJoin]
          have : pyJoin (l :: l' :: ls') = rest := by rw [← h, ih]
          simp only [pyJoin] at this
          simp [← this]

theorem pySplitLines_no_nl {s : Str} : ∀ l ∈ pySplitLines s, nl ∉ l := by
  induction s with
  | nil =>
    intro l hl
    simp only [pySplitLines, List.mem_singleton] at hl
    subst hl
    simp
  | cons c rest ih =>
    intro l hl
    simp only [pySplitLines] at hl
    by_cases hc : c == nl
    · rw [if_pos hc] at hl
      rcases List.mem_cons.1 hl with h | h
      · simp [h]
      · exact ih l h
    · rw [if_neg hc] at hl
      cases h : pySplitLines rest with
      | nil => exact absurd h (pySplitLines_ne_nil rest)
      | cons l0 ls =>
        rw [h] at hl
        rcases List.mem_cons.1 hl with h1 | h1
        · subst h1
          intro hmem
          rcases List.mem_cons.1 hmem with h2 | h2
          · exact hc (by simp [h2])
          · exact ih l0 (by rw [h]; exact List.mem_cons_self _ _) h2
        · exact ih l (by rw [h]; exact List.mem_cons_of_mem _ h1)

theorem pySplitLines_single {l : Str} (h : nl ∉ l) : pySplitLines l = [l] := by
  induction l with
  | nil => rfl
  | cons c rest ih =>
    have hc : ¬(c == nl) := by
      intro hb
      exact h (by simp [show c = nl by simpa using hb])
    simp only [pySplitLines, if_neg hc]
    rw [ih (fun hm => h (List.mem_cons_of_mem _ hm))]

theorem pySplitLines_append_nl {l t : Str} (h : nl ∉ l) :
    pySplitLines (l ++ nl :: t) = l :: pySplitLines t := by
  induction l with
  | nil =>
    simp only [List.nil_append, pySplitLines, if_pos (by rfl : (nl == nl) = true)]
  | cons c rest ih =>
    have hc : ¬(c == nl) := by
      intro hb
      exact h (by simp [show c = nl by simpa using hb])
    have heq : (c :: rest) ++ nl :: t = c :: (rest ++ nl :: t) := rfl
    rw [heq]
    simp only [pySplitLines, if_neg hc]
    rw [ih (fun hm => h (List.mem_cons_of_mem _ hm))]

theorem pySplitLines_pyJoin {ls : List Str} (hne : ls ≠ [])
    (h : ∀ l ∈ ls, nl ∉ l) : pySplitLines (pyJoin ls) = ls := by
  induction ls with
  | nil => exact absurd rfl hne
  | cons l rest ih =>
    cases rest with
    | nil =>
      simp only [pyJoin]
      exact pySplitLines_single (h l (List.mem_cons_self _ _))
    | cons l' rest' =>
      simp only [pyJoin]
      rw [pySplitLines_append_nl (h l (List.mem_cons_self _ _))]
      rw [ih (by simp) (fun x hx => h x (List.mem_cons_of_mem _ hx))]

theorem mem_pyInsert_self {α : Type} (n : Nat) (x : α) (l : List α) :
    x ∈ pyInsert n x l := by
  induction l generalizing n with
  | nil =>
    cases n <;> simp [pyInsert]
  | cons a t ih =>
    cases n with
    | zero => simp [pyInsert]
    | succ m => simpa [pyInsert] using Or.inr (ih m)

theorem mem_of_mem_pyInsert {α : Type} {n : Nat} {x y : α} {l : List α}
    (h : y ∈ pyInsert n x l) : y = x ∨ y ∈ l := by
  induction l generalizing n with
  | nil =>
    cases n <;> simpa [pyInsert] using h
  | cons a t ih =>
    cases n with
    | zero =>
      simp only [pyInsert] at h
      rcases List.mem_cons.1 h with h1 | h1
      · exact Or.inl h1
      · exact Or.inr h1
    | succ m =>
      simp only [pyInsert] at h
      rcases List.mem_cons.1 h with h1 | h1
      · exact Or.inr (by simp [h1])
      · rcases ih h1 with h2 | h2
        · exact Or.inl h2
        · exact Or.inr (List.mem_cons_of_mem _ h2)

theorem pyInsert_ne_nil {α : Type} (n : Nat) (x : α) (l : List α) :
    pyInsert n x l ≠ [] := by
  cases l <;> cases n <;> simp [pyInsert]

theorem sublist_pyInsert {α : Type} (n : Nat) (x : α) (l : List α) :
    l.Sublist (pyInsert n x l) := by
  induction l generalizing n with
  | nil => cases n <;> simp [pyInsert]
  | cons a t ih =>
    cases n with
    | zero => exact List.sublist_cons_self x (a :: t)
    | succ m => exact List.Sublist.cons₂ a (ih m)

theorem pyJoin_substr {x : Str} {ls : List Str} (h : x ∈ ls) :
    ∃ a b, pyJoin ls = a ++ x ++ b := by
  induction ls with
  | nil => simp at h
  | cons l rest ih =>
    rcases List.mem_cons.1 h with h1 | h1
    · subst h1
      cases rest with
      | nil => exact ⟨[], [], by simp [pyJoin]⟩
      | cons l' rest' => exact ⟨[], nl :: pyJoin (l' :: rest'), by simp [pyJoin]⟩
    · obtain ⟨a, b, hab⟩ := ih h1
      cases rest with
      | nil => simp at h1
      | cons l' rest' =>
        exact ⟨l ++ nl :: a, b, by simp [pyJoin, hab]⟩

theorem lastImportIdx_eq_none {ls : List Str} :
    lastImportIdx ls = none ↔ ∀ l ∈ ls, isImportPrefix l = false := by
  induction ls with
  | nil => simp [lastImportIdx]
  | cons l rest ih =>
    constructor
    · intro h
      have hrest : lastImportIdx rest = none := by
        simp only [lastImportIdx] at h
        cases hr : lastImportIdx rest with
        | some i => rw [hr] at h; simp at h
        | none => rfl
      have hl : isImportPrefix l = false := by
        simp only [lastImportIdx, hrest] at h
        by_cases hb : isImportPrefix l
        · rw [if_pos hb] at h; simp at h
        · simpa using hb
      intro l' hl'
      rcases List.mem_cons.1 hl' with h1 | h1
      · subst h1; exact hl
      · exact ih.1 hrest l' h1
    · intro hall
      have hrest : lastImportIdx rest = none :=
        ih.2 (fun l' hl' => hall l' (List.mem_cons_of_mem _ hl'))
      simp only [lastImportIdx, hrest]
      rw [if_neg (by simp [hall l (List.mem_cons_self _ _)])]

theorem lastImportIdx_some_of_mem {ls : List Str} {l : Str} (hl : l ∈ ls)
    (hil : isImportPrefix l = true) : ∃ i, lastImportIdx ls = some i := by
  cases h : lastImportIdx ls with
  | some i => exact ⟨i, rfl⟩
  | none =>
    have := lastImportIdx_eq_none.1 h l hl
    rw [hil] at this
    exact absurd this (by simp)

/-! ### The substitution scan is the identity where nothing matches -/

theorem substFuel_id_of_none {m : Matcher} :
    ∀ (fuel : Nat) (s : Str), (∀ t, t <:+ s → t ≠ [] → m t = none) →
      substFuel m fuel s = s := by
  intro fuel
  induction fuel with
  | zero => intro s _; rfl
  | succ n ih =>
    intro s h
    cases s with
    | nil => rfl
    | cons c rest =>
      have hm : m (c :: rest) = none :=
        h (c :: rest) (List.suffix_refl _) (by simp)
      simp only [substFuel, hm]
      rw [ih rest (fun t ht hne => h t (ht.trans (List.suffix_cons c rest)) hne)]

theorem subst_id_of_none {m : Matcher} {s : Str}
    (h : ∀ t, t <:+ s → t ≠ [] → m t = none) : subst m s = s :=
  substFuel_id_of_none s.length s h

theorem litMatcher_eq_none {pat rep t : Str} (h : pat.isPrefixOf t = false) :
    litMatcher pat rep t = none := by
  simp [litMatcher, h]

theorem subst_litMatcher_id {pat rep s : Str} (h : isSubstr pat s = false) :
    subst (litMatcher pat rep) s = s :=
  subst_id_of_none fun t ht _ =>
    litMatcher_eq_none (prefixOf_false_of_no_substr h ht)

theorem matchA_eq_none {opener : Str} {ok : Char → Bool} {tail : Str}
    {rep : Str → Str} {t : Str} (h : opener.isPrefixOf t = false) :
    matchA opener ok tail rep t = none := by
  simp [matchA, h]

theorem matchB_eq_none {opener : Str} {ok1 : Char → Bool} {mid : Str}
    {ok2 : Char → Bool} {tail : Str} {rep : Str → Str → Str} {t : Str}
    (h : opener.isPrefixOf t = false) :
    matchB opener ok1 mid ok2 tail rep t = none := by
  simp [matchB, h]

theorem p6_eq_none {t : Str} (h : "console.log(".toList.isPrefixOf t = false) :
    p6 t = none := by
  unfold p6
  rw [if_neg (by simp only [h]; exact Bool.false_ne_true)]

theorem prefixOf_false_of_longer {p q t : Str} (hpq : p.isPrefixOf q = true)
    (h : p.isPrefixOf t = false) : q.isPrefixOf t = false := by
  cases hb : q.isPrefixOf t with
  | false => rfl
  | true =>
    obtain ⟨u, hu⟩ := prefixOf_iff.1 hb
    obtain ⟨v, hv⟩ := prefixOf_iff.1 hpq
    have : p.isPrefixOf t = true := prefixOf_iff.2 ⟨v ++ u, by rw [← hu, ← hv]; simp⟩
    rw [this] at h
    simp at h

theorem noConsole_prefixOf_false {s t : Str} (h : noConsole s = true) (ht : t <:+ s) :
    "console.".toList.isPrefixOf t = false := by
  have hs : isSubstr "console.".toList s = false := by
    simpa [noConsole] using h
  exact prefixOf_false_of_no_substr hs ht

theorem subst_p1_id {s : Str} (h : noConsole s = true) : subst p1 s = s :=
  subst_id_of_none fun t ht _ =>
    matchA_eq_none (prefixOf_false_of_longer (by decide) (noConsole_prefixOf_false h ht))

theorem subst_p2_id {s : Str} (h : noConsole s = true) : subst p2 s = s :=
  subst_id_of_none fun t ht _ =>
    matchA_eq_none (prefixOf_false_of_longer (by decide) (noConsole_prefixOf_false h ht))

theorem subst_p3_id {s : Str} (h : noConsole s = true) : subst p3 s = s :=
  subst_id_of_none fun t ht _ =>
    matchB_eq_none (prefixOf_false_of_longer (by decide) (noConsole_prefixOf_false h ht))

theorem subst_p4_id {s : Str} (h : noConsole s = true) : subst p4 s = s :=
  subst_id_of_none fun t ht _ =>
    matchA_eq_none (prefixOf_false_of_longer (by decide) (noConsole_prefixOf_false h ht))

theorem subst_p5_id {s : Str} (h : noConsole s = true) : subst p5 s = s :=
  subst_id_of_none fun t ht _ =>
    matchA_eq_none (prefixOf_false_of_longer (by decide) (noConsole_prefixOf_false h ht))

theorem subst_p6_id {s : Str} (h : noConsole s = true) : subst p6 s = s :=
  subst_id_of_none fun t ht _ =>
    p6_eq_none (prefixOf_false_of_longer (by decide) (noConsole_prefixOf_false h ht))

theorem subst_p7_id {s : Str} (h : noConsole s = true) : subst p7 s = s :=
  subst_id_of_none fun t ht _ =>
    matchB_eq_none (prefixOf_false_of_longer (by decide) (noConsole_prefixOf_false h ht))

theorem subst_p8_id {s : Str} (h : noConsole s = true) : subst p8 s = s :=
  subst_id_of_none fun t ht _ =>
    matchB_eq_none (prefixOf_false_of_longer (by decide) (noConsole_prefixOf_false h ht))

theorem subst_p9_id {s : Str} (h : noConsole s = true) : subst p9 s = s :=
  subst_id_of_none fun t ht _ =>
    matchA_eq_none (prefixOf_false_of_longer (by decide) (noConsole_prefixOf_false h ht))

theorem stripEmoji_id {e s : Str} (h1 : isSubstr (sq :: (e ++ [' '])) s = false)
    (h2 : isSubstr (bt :: (e ++ [' '])) s = false) : stripEmoji e s = s := by
  unfold stripEmoji
  rw [subst_litMatcher_id h1, subst_litMatcher_id h2]

theorem stripEmojis_id {s : Str} (h : noEmojiMarker s = true) : stripEmojis s = s := by
  have hall : ∀ p ∈ emojiMarkers, isSubstr p s = false := by
    intro p hp
    have := List.all_eq_true.1 h p hp
    simpa using this
  have he : ∀ e ∈ emojis, stripEmoji e s = s := by
    intro e he
    refine stripEmoji_id (hall _ ?_) (hall _ ?_)
    · exact List.mem_append_left _ (List.mem_map_of_mem _ he)
    · exact List.mem_append_right _ (List.mem_map_of_mem _ he)
  show emojis.foldl (fun acc e => stripEmoji e acc) s = s
  have : ∀ (l : List Str), (∀ e ∈ l, stripEmoji e s = s) →
      l.foldl (fun acc e => stripEmoji e acc) s = s := by
    intro l
    induction l with
    | nil => intro _; rfl
    | cons e t ih =>
      intro hl
      simp only [List.foldl_cons, hl e (List.mem_cons_self _ _)]
      exact ih (fun e' he' => hl e' (List.mem_cons_of_mem _ he'))
  exact this emojis he

/-- On a text with no `console.` substring and no quoted emoji marker, the
pattern rewriter is the identity. -/
theorem migrate_id_of_inert {s : Str} (hc : noConsole s = true)
    (he : noEmojiMarker s = true) : migrate_console_statements s = s := by
  unfold migrate_console_statements
  rw [stripEmojis_id he, subst_p1_id hc, subst_p2_id hc, subst_p3_id hc,
    subst_p4_id hc, subst_p5_id hc, subst_p6_id hc, subst_p7_id hc,
    subst_p8_id hc, subst_p9_id hc]

theorem add_logger_import_of_substr {u : Str} (hu : isSubstr importLine u = true) :
    add_logger_import u = u := by
  simp [add_logger_import, hu]

/-! ### Claims about the import inserter -/

/-- C5: the import inserter is idempotent: when the exact logger import line
is already present (as a substring), `add_logger_import` returns the text
unchanged; and on any text containing at least one import line, applying
`add_logger_import` a second time to its own output is a no-op (the inserted
marker line is detected as already present). -/
theorem claim_C5 (t : Str) :
    (isSubstr importLine t = true → add_logger_import t = t) ∧
    ((∃ l, l ∈ pySplitLines t ∧ isImportPrefix l = true) →
      add_logger_import (add_logger_import t) = add_logger_import t) := by
  constructor
  · intro h
    simp [add_logger_import, h]
  · rintro ⟨l, hl, hil⟩
    by_cases h : isSubstr importLine t = true
    · simp [add_logger_import, h]
    · have hf : isSubstr importLine t = false := by
        cases hb : isSubstr importLine t with
        | false => rfl
        | true => exact absurd hb h
      obtain ⟨i, hi⟩ := lastImportIdx_some_of_mem hl hil
      have step : add_logger_import t =
          pyJoin (pyInsert (i + 1) importLine (pySplitLines t)) := by
        simp [add_logger_import, hf, hi]
      have hsub : isSubstr importLine (add_logger_import t) = true := by
        rw [step, isSubstr_iff]
        exact pyJoin_substr (mem_pyInsert_self _ _ _)
      exact add_logger_import_of_substr hsub

/-- Witness for C5: part one at a text already holding the import line, part
two at a text with an ordinary import line. -/
theorem claim_C5_witness :
    add_logger_import ("import \x7b logger \x7d from '@/lib/logger';\nconst a = 1;".toList) =
      "import \x7b logger \x7d from '@/lib/logger';\nconst a = 1;".toList ∧
    add_logger_import (add_logger_import "import a from 'b';\nconst x = 1;".toList) =
      add_logger_import "import a from 'b';\nconst x = 1;".toList :=
  ⟨(claim_C5 _).1 (by decide),
   (claim_C5 _).2 ⟨"import a from 'b';".toList, by decide, by decide⟩⟩

/-- C6: on a text that neither contains the logger import line nor any line
whose stripped content begins with `import `, `add_logger_import` returns
the text unmodified (there is no insertion point). -/
theorem claim_C6 (t : Str) (h1 : isSubstr importLine t = false)
    (h2 : ∀ l ∈ pySplitLines t, isImportPrefix l = false) :
    add_logger_import t = t := by
  have hn : lastImportIdx (pySplitLines t) = none := lastImportIdx_eq_none.2 h2
  simp [add_logger_import, h1, hn, pyJoin_pySplitLines]

/-- Witness for C6 at a text with no import line at all. -/
theorem claim_C6_witness :
    add_logger_import "const x = 1;\nexport default x;".toList =
      "const x = 1;\nexport default x;".toList :=
  claim_C6 _ (by decide) (by decide)

/-- C10: `add_logger_import` only ever inserts: the input's lines form a
sublist of the output's lines (no line is deleted or modified, order kept),
and the output either equals the input or differs by exactly one inserted
line, the logger import line, placed immediately after the last import
line. -/
theorem claim_C10 (t : Str) :
    (pySplitLines t).Sublist (pySplitLines (add_logger_import t)) ∧
    (add_logger_import t = t ∨
      ∃ i, lastImportIdx (pySplitLines t) = some i ∧
        pySplitLines (add_logger_import t) =
          pyInsert (i + 1) importLine (pySplitLines t)) := by
  by_cases h : isSubstr importLine t = true
  · have : add_logger_import t = t := by simp [add_logger_import, h]
    rw [this]
    exact ⟨List.Sublist.refl _, Or.inl rfl⟩
  · have hf : isSubstr importLine t = false := by
      cases hb : isSubstr importLine t with
      | false => rfl
      | true => exact absurd hb h
    cases hidx : lastImportIdx (pySplitLines t) with
    | none =>
      have : add_logger_import t = t := by
        simp [add_logger_import, hf, hidx, pyJoin_pySplitLines]
      rw [this]
      exact ⟨List.Sublist.refl _, Or.inl rfl⟩
    | some i =>
      have step : add_logger_import t =
          pyJoin (pyInsert (i + 1) importLine (pySplitLines t)) := by
        simp [add_logger_import, hf, hidx]
      have hsplit : pySplitLines (add_logger_import t) =
          pyInsert (i + 1) importLine (pySplitLines t) := by
        rw [step]
        refine pySplitLines_pyJoin (pyInsert_ne_nil _ _ _) ?_
        intro l hl
        rcases mem_of_mem_pyInsert hl with h1 | h1
        · subst h1
          decide
        · exact pySplitLines_no_nl l h1
      rw [hsplit]
      exact ⟨sublist_pyInsert _ _ _, Or.inr ⟨i, rfl, rfl⟩⟩

/-! ### Claims about the pattern rewriter's frame and idempotence -/

/-- C9: on a text containing neither `console.` nor any quoted emoji-prefix
marker, `migrate_console_statements` returns the text exactly unchanged. -/
theorem claim_C9 (s : Str) (hc : noConsole s = true) (he : noEmojiMarker s = true) :
    migrate_console_statements s = s :=
  migrate_id_of_inert hc he

/-- Witness for C9 at a plain text. -/
theorem claim_C9_witness :
    migrate_console_statements "const x = compute(1);\nreturn x;".toList =
      "const x = compute(1);\nreturn x;".toList :=
  claim_C9 _ (by decide) (by decide)

/-- Counterexample to C4 as stated: the line `console.log('a', '❌ ❌ b');`
is matched and rewritten by the first application (to a `logger.debug`
call), yet a second application still changes that rewritten line, because
the emoji-stripping pass fires again on the quoted `❌` marker that the
first stripping pass left behind. -/
theorem claim_C4_counterexample :
    migrate_console_statements "console.log('a', '❌ ❌ b');".toList =
      "logger.debug('a', '❌ b');".toList ∧
    migrate_console_statements (migrate_console_statements
        "console.log('a', '❌ ❌ b');".toList) =
      "logger.debug('a', 'b');".toList ∧
    migrate_console_statements (migrate_console_statements
        "console.log('a', '❌ ❌ b');".toList) ≠
      migrate_console_statements "console.log('a', '❌ ❌ b');".toList := by
  refine ⟨by decide, by decide, by decide⟩

/-- C4, amended: a second application of the rewriter changes nothing —
in particular no line rewritten by the first application — provided the
first application's output contains no `console.` substring and no quoted
emoji-prefix marker.  (Already-rewritten logger calls no longer match the
console-call patterns; but the emoji-stripping pass, which runs before the
patterns, can still change a rewritten line that retains a quoted emoji
marker, e.g. from a doubled marker, so emoji-freedom of the first output is
required.) -/
theorem claim_C4 (s : Str)
    (hc : noConsole (migrate_console_statements s) = true)
    (he : noEmojiMarker (migrate_console_statements s) = true) :
    migrate_console_statements (migrate_console_statements s) =
      migrate_console_statements s :=
  migrate_id_of_inert hc he

/-- Witness for C4 at a text whose rewritten form is inert. -/
theorem claim_C4_witness :
    migrate_console_statements (migrate_console_statements
        "console.log('Loading...');".toList) =
      migrate_console_statements "console.log('Loading...');".toList :=
  claim_C4 _ (by decide) (by decide)

/-! ### Facts about the file processor and the driver -/

theorem FS.write_self (fs : FS) (p c : Str) : FS.write fs p c p = some c := by
  simp [FS.write]

theorem FS.write_other {q p : Str} (h : q ≠ p) (fs : FS) (c : Str) :
    FS.write fs p c q = fs q := by
  simp [FS.write, h]

theorem isPrefixOf_append_of_le {a b : Str} (p : Str) (h : a.length ≤ b.length) :
    a.isPrefixOf (b ++ p) = a.isPrefixOf b := by
  induction a generalizing b with
  | nil => simp [List.isPrefixOf]
  | cons x xs ih =>
    cases b with
    | nil => simp at h
    | cons y ys =>
      simp only [List.cons_append, List.isPrefixOf, List.append_eq]
      rw [ih (by simpa using h)]

theorem isPrefixOf_append_self (a p : Str) : a.isPrefixOf (a ++ p) = true :=
  prefixOf_iff.2 ⟨p, rfl⟩

theorem isProcessedLine_processedMsg (p : Str) : isProcessedLine (processedMsg p) = true := by
  unfold isProcessedLine processedMsg
  exact isPrefixOf_append_self _ _

theorem isProcessedLine_noChangesMsg (p : Str) : isProcessedLine (noChangesMsg p) = false := by
  unfold isProcessedLine noChangesMsg
  rw [isPrefixOf_append_of_le _ (by decide)]
  decide

theorem isProcessedLine_errorMsg (p : Str) : isProcessedLine (errorMsg p) = false := by
  unfold isProcessedLine errorMsg
  rw [isPrefixOf_append_of_le _ (by decide)]
  decide

theorem isProcessedLine_notFoundMsg (p : Str) : isProcessedLine (notFoundMsg p) = false := by
  unfold isProcessedLine notFoundMsg
  rw [isPrefixOf_append_of_le _ (by decide)]
  decide

theorem process_file_cases (rErr wErr : Str → Bool) (fs : FS) (path : Str) :
    process_file rErr wErr fs path = ⟨false, fs, [errorMsg path]⟩ ∨
    process_file rErr wErr fs path = ⟨false, fs, [noChangesMsg path]⟩ ∨
    (∃ c, fs path = some c ∧
      process_file rErr wErr fs path =
        ⟨false, FS.write fs (pyWithSuffix path ".ts.backup".toList) c,
         [errorMsg path]⟩) ∨
    (∃ c, fs path = some c ∧
      process_file rErr wErr fs path =
        ⟨true, FS.write (FS.write fs (pyWithSuffix path ".ts.backup".toList) c)
          path (transform c), [processedMsg path]⟩) := by
  unfold process_file
  by_cases h1 : rErr path = true
  · rw [if_pos h1]
    exact Or.inl rfl
  · rw [if_neg h1]
    cases hfs : fs path with
    | none => exact Or.inl rfl
    | some content =>
      dsimp only
      by_cases h2 : transform content = content
      · rw [if_pos h2]
        exact Or.inr (Or.inl rfl)
      · rw [if_neg h2]
        by_cases h3 : wErr (pyWithSuffix path ".ts.backup".toList) = true
        · rw [if_pos h3]
          exact Or.inl rfl
        · rw [if_neg h3]
          by_cases h4 : wErr path = true
          · rw [if_pos h4]
            exact Or.inr (Or.inr (Or.inl ⟨content, rfl, rfl⟩))
          · rw [if_neg h4]
            exact Or.inr (Or.inr (Or.inr ⟨content, rfl, rfl⟩))

theorem process_file_log_length (rErr wErr : Str → Bool) (fs : FS) (path : Str) :
    (process_file rErr wErr fs path).log.length = 1 := by
  rcases process_file_cases rErr wErr fs path with h | h | ⟨c, _, h⟩ | ⟨c, _, h⟩ <;>
    rw [h] <;> rfl

theorem process_file_filter (rErr wErr : Str → Bool) (fs : FS) (path : Str) :
    ((process_file rErr wErr fs path).log.filter isProcessedLine).length =
      (if (process_file rErr wErr fs path).ok then 1 else 0) := by
  rcases process_file_cases rErr wErr fs path with h | h | ⟨c, _, h⟩ | ⟨c, _, h⟩ <;>
    rw [h] <;>
    simp [List.filter, isProcessedLine_processedMsg, isProcessedLine_noChangesMsg,
      isProcessedLine_errorMsg]

theorem process_file_writes (rErr wErr : Str → Bool) (fs : FS) (path q : Str)
    (h1 : q ≠ path) (h2 : q ≠ pyWithSuffix path ".ts.backup".toList) :
    (process_file rErr wErr fs path).fs q = fs q := by
  rcases process_file_cases rErr wErr fs path with h | h | ⟨c, _, h⟩ | ⟨c, _, h⟩ <;>
    rw [h]
  · show FS.write fs (pyWithSuffix path ".ts.backup".toList) c q = fs q
    simp only [FS.write]
    rw [if_neg h2]
  · show FS.write (FS.write fs (pyWithSuffix path ".ts.backup".toList) c) path
      (transform c) q = fs q
    simp only [FS.write]
    rw [if_neg h1, if_neg h2]

theorem runFiles_log_length (rErr wErr : Str → Bool) :
    ∀ (files : List Str) (fs : FS),
      (runFiles rErr wErr files fs).log.length = files.length := by
  intro files
  induction files with
  | nil => intro fs; rfl
  | cons rel rest ih =>
    intro fs
    simp only [runFiles]
    split
    · simp [process_file_log_length, ih, Nat.add_comm]
    · simp [ih]

theorem runFiles_count_filter (rErr wErr : Str → Bool) :
    ∀ (files : List Str) (fs : FS),
      (runFiles rErr wErr files fs).count =
        ((runFiles rErr wErr files fs).log.filter isProcessedLine).length := by
  intro files
  induction files with
  | nil => intro fs; rfl
  | cons rel rest ih =>
    intro fs
    simp only [runFiles]
    split
    · simp only [List.filter_append, List.length_append]
      rw [← ih, process_file_filter]
    · simp only [List.filter_cons, isProcessedLine_notFoundMsg]
      simp [ih]

theorem runFiles_missing (rErr wErr : Str → Bool) :
    ∀ (files : List Str) (fs : FS) (rel : Str), rel ∈ files →
      fs (PROJECT_DIR ++ '/' :: rel) = none →
      (∀ rel' ∈ files, PROJECT_DIR ++ '/' :: rel ≠
        pyWithSuffix (PROJECT_DIR ++ '/' :: rel') ".ts.backup".toList) →
      notFoundMsg rel ∈ (runFiles rErr wErr files fs).log := by
  intro files
  induction files with
  | nil => intro fs rel h; simp at h
  | cons rel0 rest ih =>
    intro fs rel hmem hnone hbk
    rcases List.mem_cons.1 hmem with heq | hmem'
    · subst heq
      simp only [runFiles, hnone]
      rw [if_neg (by simp)]
      exact List.mem_cons_self _ _
    · simp only [runFiles]
      split
      · rename_i hsome
        have hne : PROJECT_DIR ++ '/' :: rel ≠ PROJECT_DIR ++ '/' :: rel0 := by
          intro hc
          rw [hc] at hnone
          rw [hnone] at hsome
          simp at hsome
        have hpres : (process_file rErr wErr fs (PROJECT_DIR ++ '/' :: rel0)).fs
            (PROJECT_DIR ++ '/' :: rel) = none := by
          rw [process_file_writes _ _ _ _ _ hne
            (hbk rel0 (List.mem_cons_self _ _))]
          exact hnone
        exact List.mem_append_right _
          (ih _ rel hmem' hpres (fun r hr => hbk r (List.mem_cons_of_mem _ hr)))
      · exact List.mem_cons_of_mem _
          (ih _ rel hmem' hnone (fun r hr => hbk r (List.mem_cons_of_mem _ hr)))

/-! ### Claims about the file processor and the driver -/

/-- C7: on a readable file whose content is unchanged by the transforms,
`process_file` writes nothing (the filesystem is returned as it was, so in
particular no backup file appears and the original is not overwritten),
reports `No changes` for that file, and returns `False`. -/
theorem claim_C7 (rErr wErr : Str → Bool) (fs : FS) (path c : Str)
    (hr : rErr path = false) (hc : fs path = some c) (ht : transform c = c) :
    process_file rErr wErr fs path = ⟨false, fs, [noChangesMsg path]⟩ := by
  simp [process_file, hr, hc, ht]

/-- Witness for C7 at a one-file filesystem whose file needs no change. -/
theorem claim_C7_witness :
    process_file (fun _ => false) (fun _ => false)
      (fun q => if q = "a.ts".toList then some "const x = 1;".toList else none)
      "a.ts".toList =
    ⟨false,
     fun q => if q = "a.ts".toList then some "const x = 1;".toList else none,
     [noChangesMsg "a.ts".toList]⟩ :=
  claim_C7 (fun _ => false) (fun _ => false)
    (fun q => if q = "a.ts".toList then some "const x = 1;".toList else none)
    "a.ts".toList "const x = 1;".toList rfl rfl (by decide)

/-- C1: on a target file whose content the transforms change, `process_file`
writes the backup file — the original path with its extension replaced by
the `.ts.backup` dual extension, i.e. `path ++ ".backup"` — holding exactly
the original text, at a moment when the original path still holds the
original text; afterwards the original path holds exactly the transformed
text while the backup keeps the original. -/
theorem claim_C1 (rErr wErr : Str → Bool) (fs : FS) (path c : Str)
    (hmem : path ∈ targetPaths) (hr : rErr path = false) (hc : fs path = some c)
    (hch : transform c ≠ c)
    (hw1 : wErr (pyWithSuffix path ".ts.backup".toList) = false)
    (hw2 : wErr path = false) :
    pyWithSuffix path ".ts.backup".toList = path ++ ".backup".toList ∧
    process_file rErr wErr fs path =
      ⟨true, FS.write (FS.write fs (path ++ ".backup".toList) c) path (transform c),
       [processedMsg path]⟩ ∧
    FS.write fs (path ++ ".backup".toList) c (path ++ ".backup".toList) = some c ∧
    FS.write fs (path ++ ".backup".toList) c path = some c ∧
    FS.write (FS.write fs (path ++ ".backup".toList) c) path (transform c) path =
      some (transform c) ∧
    FS.write (FS.write fs (path ++ ".backup".toList) c) path (transform c)
      (path ++ ".backup".toList) = some c := by
  have hbp : pyWithSuffix path ".ts.backup".toList = path ++ ".backup".toList := by
    simp only [targetPaths, FILES_TO_PROCESS, List.map_cons, List.map_nil,
      List.mem_cons, List.not_mem_nil, or_false] at hmem
    rcases hmem with h | h | h | h | h | h | h | h | h | h | h
    all_goals (subst h; decide)
  have hne : path ≠ path ++ ".backup".toList := by
    intro heq
    have := congrArg List.length heq
    simp at this
  have hne' : path ++ ".backup".toList ≠ path := fun h => hne h.symm
  refine ⟨hbp, ?_, ?_, ?_, ?_, ?_⟩
  · have hw1' : wErr (path ++ ".backup".toList) = false := hbp ▸ hw1
    have hw1x : wErr (path ++ ['.', 'b', 'a', 'c', 'k', 'u', 'p']) = false := hw1'
    unfold process_file
    rw [if_neg (by simp [hr]), hc]
    dsimp only
    rw [if_neg hch, hbp, if_neg (by simp [hw1x]), if_neg (by simp [hw2])]
  · exact FS.write_self _ _ _
  · rw [FS.write_other hne _ _]
    exact hc
  · exact FS.write_self _ _ _
  · rw [FS.write_other hne' _ _]
    exact FS.write_self _ _ _

/-- Witness for C1 at the first target file holding one rewritable line. -/
theorem claim_C1_witness :
    pyWithSuffix (PROJECT_DIR ++ '/' :: "src/lib/leave-service.ts".toList)
        ".ts.backup".toList =
      (PROJECT_DIR ++ '/' :: "src/lib/leave-service.ts".toList) ++ ".backup".toList ∧
    process_file (fun _ => false) (fun _ => false)
      (fun q => if q = PROJECT_DIR ++ '/' :: "src/lib/leave-service.ts".toList
        then some "console.warn('Low battery');".toList else none)
      (PROJECT_DIR ++ '/' :: "src/lib/leave-service.ts".toList) =
      ⟨true,
       FS.write
         (FS.write
           (fun q => if q = PROJECT_DIR ++ '/' :: "src/lib/leave-service.ts".toList
             then some "console.warn('Low battery');".toList else none)
           ((PROJECT_DIR ++ '/' :: "src/lib/leave-service.ts".toList) ++ ".backup".toList)
           "console.warn('Low battery');".toList)
         (PROJECT_DIR ++ '/' :: "src/lib/leave-service.ts".toList)
         (transform "console.warn('Low battery');".toList),
       [processedMsg (PROJECT_DIR ++ '/' :: "src/lib/leave-service.ts".toList)]⟩ ∧
    FS.write
      (fun q => if q = PROJECT_DIR ++ '/' :: "src/lib/leave-service.ts".toList
        then some "console.warn('Low battery');".toList else none)
      ((PROJECT_DIR ++ '/' :: "src/lib/leave-service.ts".toList) ++ ".backup".toList)
      "console.warn('Low battery');".toList
      ((PROJECT_DIR ++ '/' :: "src/lib/leave-service.ts".toList) ++ ".backup".toList) =
      some "console.warn('Low battery');".toList ∧
    FS.write
      (fun q => if q = PROJECT_DIR ++ '/' :: "src/lib/leave-service.ts".toList
        then some "console.warn('Low battery');".toList else none)
      ((PROJECT_DIR ++ '/' :: "src/lib/leave-service.ts".toList) ++ ".backup".toList)
      "console.warn('Low battery');".toList
      (PROJECT_DIR ++ '/' :: "src/lib/leave-service.ts".toList) =
      some "console.warn('Low battery');".toList ∧
    FS.write
      (FS.write
        (fun q => if q = PROJECT_DIR ++ '/' :: "src/lib/leave-service.ts".toList
          then some "console.warn('Low battery');".toList else none)
        ((PROJECT_DIR ++ '/' :: "src/lib/leave-service.ts".toList) ++ ".backup".toList)
        "console.warn('Low battery');".toList)
      (PROJECT_DIR ++ '/' :: "src/lib/leave-service.ts".toList)
      (transform "console.warn('Low battery');".toList)
      (PROJECT_DIR ++ '/' :: "src/lib/leave-service.ts".toList) =
      some (transform "console.warn('Low battery');".toList) ∧
    FS.write
      (FS.write
        (fun q => if q = PROJECT_DIR ++ '/' :: "src/lib/leave-service.ts".toList
          then some "console.warn('Low battery');".toList else none)
        ((PROJECT_DIR ++ '/' :: "src/lib/leave-service.ts".toList) ++ ".backup".toList)
        "console.warn('Low battery');".toList)
      (PROJECT_DIR ++ '/' :: "src/lib/leave-service.ts".toList)
      (transform "console.warn('Low battery');".toList)
      ((PROJECT_DIR ++ '/' :: "src/lib/leave-service.ts".toList) ++ ".backup".toList) =
      some "console.warn('Low battery');".toList :=
  claim_C1 (fun _ => false) (fun _ => false)
    (fun q => if q = PROJECT_DIR ++ '/' :: "src/lib/leave-service.ts".toList
      then some "console.warn('Low battery');".toList else none)
    (PROJECT_DIR ++ '/' :: "src/lib/leave-service.ts".toList)
    "console.warn('Low battery');".toList
    (by decide) rfl rfl (by decide) rfl rfl

/-- C8: per-file failures never abort the run.  For any filesystem and any
read/write-error oracles, the driver prints exactly one status line per
listed file plus two banner and two closing lines; every listed file whose
path is absent yields a `File not found` warning; the final count equals
the number of `Processed` status lines (so missing and failing files are
excluded from it); and the summary line carrying that count is always
printed.  Totality of `main_run` itself models that no per-file exception
reaches the caller. -/
theorem claim_C8 (rErr wErr : Str → Bool) (fs : FS) :
    (main_run rErr wErr fs).log.length = FILES_TO_PROCESS.length + 4 ∧
    (∀ rel ∈ FILES_TO_PROCESS, fs (PROJECT_DIR ++ '/' :: rel) = none →
      notFoundMsg rel ∈ (main_run rErr wErr fs).log) ∧
    (main_run rErr wErr fs).count =
      ((main_run rErr wErr fs).log.filter isProcessedLine).length ∧
    summaryMsg (main_run rErr wErr fs).count ∈ (main_run rErr wErr fs).log ∧
    (main_run rErr wErr fs).log.getLast? =
      some "Run 'npm run build' to verify changes".toList := by
  refine ⟨?_, ?_, ?_, ?_, ?_⟩
  · show (List.length _) = _
    unfold main_run
    dsimp only
    rw [List.length_append, List.length_append, runFiles_log_length]
    show 2 + (FILES_TO_PROCESS.length + 2) = FILES_TO_PROCESS.length + 4
    omega
  · intro rel hrel hnone
    have hbk : ∀ rel' ∈ FILES_TO_PROCESS, PROJECT_DIR ++ '/' :: rel ≠
        pyWithSuffix (PROJECT_DIR ++ '/' :: rel') ".ts.backup".toList := by
      simp only [FILES_TO_PROCESS, List.mem_cons, List.not_mem_nil, or_false] at hrel
      intro rel' hrel'
      simp only [FILES_TO_PROCESS, List.mem_cons, List.not_mem_nil, or_false] at hrel'
      rcases hrel with h | h | h | h | h | h | h | h | h | h | h <;> subst h <;>
        (rcases hrel' with h' | h' | h' | h' | h' | h' | h' | h' | h' | h' | h' <;>
          subst h' <;> decide)
    have hmem := runFiles_missing rErr wErr FILES_TO_PROCESS fs rel hrel hnone hbk
    show notFoundMsg rel ∈ (main_run rErr wErr fs).log
    unfold main_run
    dsimp only
    exact List.mem_append_left _ (List.mem_append_right _ hmem)
  · have h3 : ∀ n, isProcessedLine (summaryMsg n) = false := by
      intro n
      unfold isProcessedLine summaryMsg
      have hre : ("✅ Migration complete! Processed ".toList ++
          (toString n).toList ++ " files".toList) =
          ("✅ Migration complete! Processed ".toList ++
            ((toString n).toList ++ " files".toList)) := by simp
      rw [hre, isPrefixOf_append_of_le _ (by decide)]
      decide
    show (main_run rErr wErr fs).count = _
    unfold main_run
    dsimp only
    rw [List.filter_append, List.filter_append]
    have hA : List.filter isProcessedLine
        ["Starting console → logger migration...".toList,
         "Project: ".toList ++ PROJECT_DIR] = [] := by decide
    have hB : List.filter isProcessedLine
        [summaryMsg (runFiles rErr wErr FILES_TO_PROCESS fs).count,
         "Run 'npm run build' to verify changes".toList] = [] := by
      rw [List.filter_cons, List.filter_cons]
      rw [if_neg (by simp [h3]), if_neg (by decide)]
      rfl
    rw [hA, hB]
    simp only [List.nil_append, List.append_nil]
    exact runFiles_count_filter rErr wErr FILES_TO_PROCESS fs
  · show summaryMsg (main_run rErr wErr fs).count ∈ (main_run rErr wErr fs).log
    unfold main_run
    dsimp only
    exact List.mem_append_right _ (List.mem_cons_self _ _)
  · show (main_run rErr wErr fs).log.getLast? = _
    unfold main_run
    dsimp only
    rw [List.getLast?_append]
    rfl

/-! ### Claims about the concrete rewrite scenarios -/

/-- Counterexample to C3 as stated: an input text that contains the line
`console.log('Saved successfully');` but in which an earlier
`console.log('… successfully:', …` fragment lets pattern 3 (whose second
group `[^)]+` may span newlines) consume that line into a `{ data: … }`
payload: the output does not contain `logger.info('Saved successfully');`
at all. -/
theorem claim_C3_counterexample :
    isSubstr "console.log('Saved successfully');".toList
      "console.log('x successfully:', y\nconsole.log('Saved successfully');".toList
      = true ∧
    migrate_console_statements
        "console.log('x successfully:', y\nconsole.log('Saved successfully');".toList =
      "logger.info('x successfully', \x7b data: y\nconsole.log('Saved successfully' \x7d);".toList ∧
    isSubstr "logger.info('Saved successfully');".toList
      (migrate_console_statements
        "console.log('x successfully:', y\nconsole.log('Saved successfully');".toList)
      = false :=
  ⟨by decide, by decide, by decide⟩

/-- C3, amended: when the line `console.log('Saved successfully');` is not
preceded by text that completes an earlier multi-line pattern match — in
particular when the input consists exactly of that line — the rewriter maps
it to `logger.info('Saved successfully');`: the earlier, more specific
`successfully` pattern (info level) fires, not the later general
single-argument pattern (debug level). -/
theorem claim_C3 :
    migrate_console_statements "console.log('Saved successfully');".toList =
      "logger.info('Saved successfully');".toList := by
  decide

/-! ### List toolkit for the contextual rewrite proof -/

theorem take_append_of_le {a b : Str} {k : Nat} (h : k ≤ a.length) :
    (a ++ b).take k = a.take k := by
  rw [List.take_append_eq_append_take, Nat.sub_eq_zero_of_le h, List.take_zero,
    List.append_nil]

theorem drop_append_of_le {a b : Str} {k : Nat} (h : k ≤ a.length) :
    (a ++ b).drop k = a.drop k ++ b := by
  rw [List.drop_append_eq_append_drop, Nat.sub_eq_zero_of_le h, List.drop_zero]

theorem prefix_take_of_append {S u e rem : Str} (h : S ++ u = e ++ rem)
    (hle : e.length ≤ S.length) : e = S.take e.length := by
  have h2 := congrArg (List.take e.length) h
  rw [take_append_of_le hle, List.take_left] at h2
  exact h2.symm

theorem suffix_split_right {A B x e : Str} (h : A ++ B = x ++ e)
    (hle : e.length ≤ B.length) : ∃ B₁, B = B₁ ++ e ∧ x = A ++ B₁ := by
  rcases List.append_eq_append_iff.1 h with ⟨a', hx, hB⟩ | ⟨c', hA, he⟩
  · exact ⟨a', hB, hx⟩
  · have hlen := congrArg List.length he
    simp only [List.length_append] at hlen
    have hc : c'.length = 0 := by omega
    have hc' : c' = [] := List.length_eq_zero.1 hc
    subst hc'
    simp only [List.nil_append] at he
    exact ⟨[], by simp [he], by simp [hA]⟩

theorem mid_split_right {g tail x e : Str} (h : g ++ tail = x ++ e)
    (hge : tail.length ≤ e.length) : ∃ e₂, e = e₂ ++ tail ∧ g = x ++ e₂ := by
  rcases List.append_eq_append_iff.1 h with ⟨a', hx, htail⟩ | ⟨c', hg, he⟩
  · have hlen := congrArg List.length htail
    simp only [List.length_append] at hlen
    have ha : a'.length = 0 := by omega
    have ha' : a' = [] := List.length_eq_zero.1 ha
    subst ha'
    simp only [List.nil_append] at htail
    exact ⟨[], by simp [htail], by simpa using hx.symm⟩
  · exact ⟨c', he, hg⟩

theorem all_range_skip0 {n : Nat} {f : Nat → Bool}
    (h : (List.range n).all (fun k => (k == 0) || f k) = true) {k : Nat}
    (h1 : 1 ≤ k) (h2 : k < n) : f k = true := by
  have hk := List.all_eq_true.1 h k (List.mem_range.2 h2)
  simp only [Bool.or_eq_true, beq_iff_eq] at hk
  rcases hk with hz | hf
  · omega
  · exact hf

theorem getLast?_cons_of_ne {c : Char} {l : Str} (h : l ≠ []) :
    (c :: l).getLast? = l.getLast? := by
  cases l with
  | nil => exact absurd rfl h
  | cons d t => exact List.getLast?_cons_cons

theorem takeWhile_append_eq {ok : Char → Bool} {a : Str} {c : Char} (b : Str)
    (ha : ∀ x ∈ a, ok x = true) (hc : ok c = false) :
    (a ++ c :: b).takeWhile ok = a := by
  induction a with
  | nil => simp [List.takeWhile_cons, hc]
  | cons x xs ih =>
    simp only [List.cons_append, List.takeWhile_cons, ha x (List.mem_cons_self _ _),
      if_pos trivial]
    rw [ih (fun y hy => ha y (List.mem_cons_of_mem _ hy))]

theorem isPrefixOf_cons_of_ne {a b : Char} (h : (a == b) = false) (p q : Str) :
    (a :: p).isPrefixOf (b :: q) = false := by
  simp [List.isPrefixOf, h]

theorem drop_takeWhile_length {ok : Char → Bool} (l : Str) :
    l.drop (l.takeWhile ok).length = l.dropWhile ok := by
  have h := List.takeWhile_append_dropWhile ok l
  calc l.drop (l.takeWhile ok).length
      = (l.takeWhile ok ++ l.dropWhile ok).drop (l.takeWhile ok).length := by rw [h]
    _ = l.dropWhile ok := List.drop_left _ _

/-! ### Matcher normal forms -/

theorem greedyA_sound {tail : Str} : ∀ {rg rest g rem : Str},
    greedyA tail rg rest = some (g, rem) →
    g ≠ [] ∧ ∃ d, rg.reverse = g ++ d ∧ tail ++ rem = d ++ rest := by
  intro rg
  induction rg with
  | nil => intro rest g rem h; simp [greedyA] at h
  | cons c rg' ih =>
    intro rest g rem h
    by_cases hp : tail.isPrefixOf rest = true
    · rw [greedyA, if_pos hp] at h
      obtain ⟨hg, hrem⟩ := Prod.mk.inj (Option.some.inj h)
      obtain ⟨v, hv⟩ := prefixOf_iff.1 hp
      refine ⟨by simp [← hg], [], by simp [hg], ?_⟩
      rw [← hrem, ← hv, List.drop_left]
      simp
    · rw [greedyA, if_neg hp] at h
      obtain ⟨hg, d', hd1, hd2⟩ := ih h
      refine ⟨hg, d' ++ [c], ?_, ?_⟩
      · simp only [List.reverse_cons, hd1, List.append_assoc]
      · rw [hd2]
        simp

theorem split_run {ok : Char → Bool} {t g d : Str} (hd1 : t.takeWhile ok = g ++ d) :
    t = g ++ (d ++ t.drop (t.takeWhile ok).length) := by
  rw [drop_takeWhile_length]
  conv_lhs => rw [← List.takeWhile_append_dropWhile ok t]
  rw [hd1]
  simp [List.append_assoc]

theorem matchA_some_nf {opener tail : Str} {ok : Char → Bool} {rep : Str → Str}
    {s r rem : Str} (h : matchA opener ok tail rep s = some (r, rem)) :
    ∃ g, s = opener ++ g ++ tail ++ rem ∧ g ≠ [] ∧ (∀ c ∈ g, ok c = true) ∧
      r = rep g := by
  unfold matchA at h
  by_cases hp : opener.isPrefixOf s = true
  · rw [if_pos hp] at h
    obtain ⟨t, ht⟩ := prefixOf_iff.1 hp
    have hdrop : s.drop opener.length = t := by rw [← ht, List.drop_left]
    rw [hdrop] at h
    dsimp only at h
    cases hg : greedyA tail (t.takeWhile ok).reverse (t.drop (t.takeWhile ok).length) with
    | none => rw [hg] at h; simp at h
    | some p =>
      obtain ⟨g0, rem0⟩ := p
      rw [hg] at h
      obtain ⟨hr, hrem⟩ := Prod.mk.inj (Option.some.inj h)
      obtain ⟨hg0, d, hd1, hd2⟩ := greedyA_sound hg
      rw [List.reverse_reverse] at hd1
      have ht3 : t = g0 ++ (tail ++ rem0) := by
        have h4 := split_run hd1
        rw [← hd2] at h4
        exact h4
      refine ⟨g0, ?_, hg0, ?_, hr.symm⟩
      · rw [← hrem, ← ht, ht3]
        simp [List.append_assoc]
      · intro c hc
        have hmem : c ∈ t.takeWhile ok := by
          rw [hd1]
          exact List.mem_append_left _ hc
        exact List.mem_takeWhile_imp hmem
  · rw [if_neg hp] at h
    simp at h

theorem greedyB_sound {mid tail : Str} {ok2 : Char → Bool} : ∀ {rg rest g1 g2 rem : Str},
    greedyB mid ok2 tail rg rest = some (g1, g2, rem) →
    g1 ≠ [] ∧ g2 ≠ [] ∧ (∀ c ∈ g2, ok2 c = true) ∧
      ∃ d, rg.reverse = g1 ++ d ∧ mid ++ (g2 ++ (tail ++ rem)) = d ++ rest := by
  intro rg
  induction rg with
  | nil => intro rest g1 g2 rem h; simp [greedyB] at h
  | cons c rg' ih =>
    intro rest g1 g2 rem h
    by_cases hp : mid.isPrefixOf rest = true
    · rw [greedyB, if_pos hp] at h
      obtain ⟨v, hv⟩ := prefixOf_iff.1 hp
      have hdrop : rest.drop mid.length = v := by rw [← hv, List.drop_left]
      rw [hdrop] at h
      dsimp only at h
      cases hga : greedyA tail (v.takeWhile ok2).reverse
          (v.drop (v.takeWhile ok2).length) with
      | none =>
        rw [hga] at h
        obtain ⟨hg1, hg2, hok2, d, hd1, hd2⟩ := ih h
        refine ⟨hg1, hg2, hok2, d ++ [c], by simp [List.reverse_cons, hd1], ?_⟩
        rw [hd2]
        simp
      | some p =>
        obtain ⟨g20, rem0⟩ := p
        rw [hga] at h
        obtain ⟨h1, h2⟩ := Prod.mk.inj (Option.some.inj h)
        obtain ⟨h2a, h2b⟩ := Prod.mk.inj h2
        obtain ⟨hg0, d, hd1, hd2⟩ := greedyA_sound hga
        rw [List.reverse_reverse] at hd1
        have hv3 : v = g20 ++ (tail ++ rem0) := by
          have h4 := split_run hd1
          rw [← hd2] at h4
          exact h4
        refine ⟨by simp [← h1], by rw [← h2a]; exact hg0, ?_, [], by simp [h1], ?_⟩
        · intro x hx
          rw [← h2a] at hx
          have hmem : x ∈ v.takeWhile ok2 := by
            rw [hd1]
            exact List.mem_append_left _ hx
          exact List.mem_takeWhile_imp hmem
        · rw [List.nil_append, ← hv, hv3, h2a, h2b]
    · rw [greedyB, if_neg hp] at h
      obtain ⟨hg1, hg2, hok2, d, hd1, hd2⟩ := ih h
      refine ⟨hg1, hg2, hok2, d ++ [c], by simp [List.reverse_cons, hd1], ?_⟩
      rw [hd2]
      simp

theorem matchB_some_nf {opener mid tail : Str} {ok1 ok2 : Char → Bool}
    {rep : Str → Str → Str} {s r rem : Str}
    (h : matchB opener ok1 mid ok2 tail rep s = some (r, rem)) :
    ∃ g1 g2, s = opener ++ g1 ++ mid ++ g2 ++ tail ++ rem ∧ g1 ≠ [] ∧ g2 ≠ [] ∧
      (∀ c ∈ g1, ok1 c = true) ∧ (∀ c ∈ g2, ok2 c = true) ∧ r = rep g1 g2 := by
  unfold matchB at h
  by_cases hp : opener.isPrefixOf s = true
  · rw [if_pos hp] at h
    obtain ⟨t, ht⟩ := prefixOf_iff.1 hp
    have hdrop : s.drop opener.length = t := by rw [← ht, List.drop_left]
    rw [hdrop] at h
    dsimp only at h
    cases hg : greedyB mid ok2 tail (t.takeWhile ok1).reverse
        (t.drop (t.takeWhile ok1).length) with
    | none => rw [hg] at h; simp at h
    | some p =>
      obtain ⟨g10, g20, rem0⟩ := p
      rw [hg] at h
      obtain ⟨hr, hrem⟩ := Prod.mk.inj (Option.some.inj h)
      obtain ⟨hg1, hg2, hok2, d, hd1, hd2⟩ := greedyB_sound hg
      rw [List.reverse_reverse] at hd1
      have ht3 : t = g10 ++ (mid ++ (g20 ++ (tail ++ rem0))) := by
        have h4 := split_run hd1
        rw [← hd2] at h4
        exact h4
      refine ⟨g10, g20, ?_, hg1, hg2, ?_, hok2, hr.symm⟩
      · rw [← hrem, ← ht, ht3]
        simp [List.append_assoc]
      · intro c hc
        have hmem : c ∈ t.takeWhile ok1 := by
          rw [hd1]
          exact List.mem_append_left _ hc
        exact List.mem_takeWhile_imp hmem
  · rw [if_neg hp] at h
    simp at h

theorem litMatcher_some_nf {pat rep s r rem : Str}
    (h : litMatcher pat rep s = some (r, rem)) : s = pat ++ rem ∧ r = rep := by
  unfold litMatcher at h
  by_cases hp : pat.isPrefixOf s = true
  · rw [if_pos hp] at h
    obtain ⟨t, ht⟩ := prefixOf_iff.1 hp
    obtain ⟨hr, hrem⟩ := Prod.mk.inj (Option.some.inj h)
    have hdrop : s.drop pat.length = t := by rw [← ht, List.drop_left]
    exact ⟨by rw [← ht, ← hrem, hdrop], hr.symm⟩
  · rw [if_neg hp] at h
    simp at h

theorem p6_some_nf {s r rem : Str} (h : p6 s = some (r, rem)) :
    ∃ c g, (c = sq ∨ c = bt) ∧
      s = ("console.log(".toList ++ [c]) ++ g ++ (c :: ')' :: ';' :: []) ++ rem ∧
      g ≠ [] ∧ (∀ x ∈ g, okQB x = true) ∧
      r = "logger.debug('".toList ++ g ++ "');".toList := by
  unfold p6 at h
  by_cases hp : "console.log(".toList.isPrefixOf s = true
  · rw [if_pos hp] at h
    obtain ⟨t, ht⟩ := prefixOf_iff.1 hp
    have h12 : (12 : Nat) = ("console.log(".toList).length := by decide
    have hdrop : s.drop 12 = t := by
      rw [← ht, h12]
      exact List.drop_left _ _
    rw [hdrop] at h
    cases t with
    | nil => simp at h
    | cons c s1 =>
      replace h : (if (c == sq || c == bt) = true then
          (match greedyA [c, ')', ';'] (s1.takeWhile okQB).reverse
              (s1.drop (s1.takeWhile okQB).length) with
            | some (g, rem) =>
              some ("logger.debug('".toList ++ g ++ "');".toList, rem)
            | none => none)
          else none) = some (r, rem) := h
      by_cases hc : (c == sq || c == bt) = true
      · rw [if_pos hc] at h
        cases hg : greedyA [c, ')', ';'] (s1.takeWhile okQB).reverse
            (s1.drop (s1.takeWhile okQB).length) with
        | none => rw [hg] at h; simp at h
        | some p =>
          obtain ⟨g0, rem0⟩ := p
          rw [hg] at h
          obtain ⟨hr, hrem⟩ := Prod.mk.inj (Option.some.inj h)
          obtain ⟨hg0, d, hd1, hd2⟩ := greedyA_sound hg
          rw [List.reverse_reverse] at hd1
          have hcd : c = sq ∨ c = bt := by
            rcases (Bool.or_eq_true _ _).mp hc with h1 | h1
            · exact Or.inl (by simpa using h1)
            · exact Or.inr (by simpa using h1)
          have ht3 : s1 = g0 ++ ([c, ')', ';'] ++ rem0) := by
            have h4 := split_run hd1
            rw [← hd2] at h4
            exact h4
          refine ⟨c, g0, hcd, ?_, hg0, ?_, hr.symm⟩
          · rw [← hrem, ← ht, ht3]
            simp [List.append_assoc]
          · intro x hx
            have hmem : x ∈ s1.takeWhile okQB := by
              rw [hd1]
              exact List.mem_append_left _ hx
            exact List.mem_takeWhile_imp hmem
      · rw [if_neg hc] at h
        simp at h
  · rw [if_neg hp] at h
    simp at h

/-! ### Consume and skip facts -/

theorem append_ne_nil_right {a b : Str} (h : b ≠ []) : a ++ b ≠ [] := fun hc =>
  h (List.append_eq_nil.1 hc).2

theorem litMatcher_consume {pat rep : Str} (hne : pat ≠ [])
    (hnl : pat.getLast? ≠ some nl) : Consumes (litMatcher pat rep) := by
  intro s r rem h
  obtain ⟨hs, _⟩ := litMatcher_some_nf h
  exact ⟨pat, hs, hne, hnl⟩

theorem matchA_consume {opener tail : Str} {ok : Char → Bool} {rep : Str → Str}
    (htne : tail ≠ []) (htnl : tail.getLast? ≠ some nl) :
    Consumes (matchA opener ok tail rep) := by
  intro s r rem h
  obtain ⟨g, hs, _, _, _⟩ := matchA_some_nf h
  refine ⟨opener ++ (g ++ tail), ?_, append_ne_nil_right (append_ne_nil_right htne), ?_⟩
  · rw [hs]
    simp [List.append_assoc]
  · rw [List.getLast?_append_of_ne_nil _ (by simp [htne]),
      List.getLast?_append_of_ne_nil _ htne]
    exact htnl

theorem matchB_consume {opener mid tail : Str} {ok1 ok2 : Char → Bool}
    {rep : Str → Str → Str} (htne : tail ≠ []) (htnl : tail.getLast? ≠ some nl) :
    Consumes (matchB opener ok1 mid ok2 tail rep) := by
  intro s r rem h
  obtain ⟨g1, g2, hs, _, _, _, _, _⟩ := matchB_some_nf h
  refine ⟨opener ++ (g1 ++ (mid ++ (g2 ++ tail))), ?_,
    append_ne_nil_right (append_ne_nil_right (append_ne_nil_right
      (append_ne_nil_right htne))), ?_⟩
  · rw [hs]
    simp [List.append_assoc]
  · rw [List.getLast?_append_of_ne_nil _ (by simp [htne]),
      List.getLast?_append_of_ne_nil _ (by simp [htne]),
      List.getLast?_append_of_ne_nil _ (by simp [htne]),
      List.getLast?_append_of_ne_nil _ htne]
    exact htnl

theorem p6_consume : Consumes p6 := by
  intro s r rem h
  obtain ⟨c, g, _, hs, _, _, _⟩ := p6_some_nf h
  refine ⟨("console.log(".toList ++ [c]) ++ (g ++ (c :: ')' :: ';' :: [])), ?_,
    append_ne_nil_right (append_ne_nil_right (by simp)), ?_⟩
  · rw [hs]
    simp [List.append_assoc]
  · rw [List.getLast?_append_of_ne_nil _ (append_ne_nil_right (by simp)),
      List.getLast?_append_of_ne_nil _ (show (c :: ')' :: ';' :: []) ≠ [] by simp),
      List.getLast?_cons_cons, List.getLast?_cons_cons]
    decide

theorem neverMatchAt_prefixOf_false {pat S : Str} (h : neverMatchAt pat S = true)
    {t u : Str} (ht : t <:+ S) (htne : t ≠ []) :
    pat.isPrefixOf (t ++ u) = false := by
  obtain ⟨w, hw⟩ := ht
  have hlen : w.length < S.length := by
    rw [← hw, List.length_append]
    cases t with
    | nil => exact absurd rfl htne
    | cons a b => simp
  have hdropw : S.drop w.length = t := by rw [← hw, List.drop_left]
  have hi := List.all_eq_true.1 h w.length (List.mem_range.2 hlen)
  rw [hdropw] at hi
  simp only [Bool.and_eq_true, Bool.not_eq_true'] at hi
  obtain ⟨h1, h2⟩ := hi
  cases hb : pat.isPrefixOf (t ++ u) with
  | false => rfl
  | true =>
    obtain ⟨v, hv⟩ := prefixOf_iff.1 hb
    by_cases hle : pat.length ≤ t.length
    · have hp : pat = t.take pat.length := prefix_take_of_append hv.symm hle
      have : pat.isPrefixOf t = true := by
        refine prefixOf_iff.2 ⟨t.drop pat.length, ?_⟩
        nth_rewrite 1 [hp]
        exact List.take_append_drop _ _
      rw [this] at h2
      simp at h2
    · have hle2 : t.length ≤ pat.length := Nat.le_of_lt (Nat.lt_of_not_le hle)
      have hp : t = pat.take t.length := prefix_take_of_append hv hle2
      have : t.isPrefixOf pat = true := by
        refine prefixOf_iff.2 ⟨pat.drop t.length, ?_⟩
        nth_rewrite 1 [hp]
        exact List.take_append_drop _ _
      rw [this] at h1
      simp at h1

theorem skips_litMatcher {pat rep S : Str} (h : neverMatchAt pat S = true) :
    SkipsIn (litMatcher pat rep) S := fun t u ht htne =>
  litMatcher_eq_none (neverMatchAt_prefixOf_false h ht htne)

theorem skips_matchA {opener tail S : Str} {ok : Char → Bool} {rep : Str → Str}
    (h : neverMatchAt opener S = true) : SkipsIn (matchA opener ok tail rep) S :=
  fun t u ht htne => matchA_eq_none (neverMatchAt_prefixOf_false h ht htne)

theorem skips_matchB {opener mid tail S : Str} {ok1 ok2 : Char → Bool}
    {rep : Str → Str → Str} (h : neverMatchAt opener S = true) :
    SkipsIn (matchB opener ok1 mid ok2 tail rep) S :=
  fun t u ht htne => matchB_eq_none (neverMatchAt_prefixOf_false h ht htne)

theorem skips_p6 {S : Str} (h : neverMatchAt "console.log(".toList S = true) :
    SkipsIn p6 S :=
  fun t u ht htne => p6_eq_none (neverMatchAt_prefixOf_false h ht htne)

/-! ### The shield argument -/

theorem shieldCheckA_parts {opener tail S : Str} {ok : Char → Bool}
    (h : shieldCheckA opener ok tail S = true) :
    (∀ k, 1 ≤ k → k ≤ tail.length → tail.drop (tail.length - k) ≠ S.take k) ∧
    (∀ gs, 1 ≤ gs → gs ≤ S.length →
      ¬((S.take gs).all ok = true ∧ segEq S gs tail = true)) ∧
    (∀ os, 1 ≤ os → os < opener.length →
      opener.drop (opener.length - os) ≠ S.take os) := by
  unfold shieldCheckA at h
  simp only [Bool.and_eq_true] at h
  obtain ⟨⟨h1, h2⟩, h3⟩ := h
  refine ⟨?_, ?_, ?_⟩
  · intro k hk1 hk2
    have := all_range_skip0 h1 hk1 (by omega)
    exact bne_iff_ne.1 this
  · intro gs hg1 hg2 hc
    have := all_range_skip0 h2 hg1 (by omega)
    rw [hc.1, hc.2] at this
    simp at this
  · intro os ho1 ho2
    have := all_range_skip0 h3 ho1 ho2
    exact bne_iff_ne.1 this

theorem segEq_self_len (S tail : Str) : segEq S S.length tail = true := by
  simp [segEq]

theorem shieldA_core {opener tail S x u g rem : Str} {ok : Char → Bool}
    (hchk : shieldCheckA opener ok tail S = true)
    (hop : opener ≠ []) (holen : opener.length ≤ S.length)
    (htlen : tail.length ≤ S.length) (hx : x ≠ [])
    (heq : x ++ (S ++ u) = opener ++ (g ++ (tail ++ rem)))
    (hgok : ∀ c ∈ g, ok c = true) :
    ∃ w x', x = w ++ x' ∧ rem = x' ++ S ++ u ∧ w ≠ [] := by
  obtain ⟨hc1, hc2, hc3⟩ := shieldCheckA_parts hchk
  have hw0ne : opener ++ (g ++ tail) ≠ [] := by simp [hop]
  have heq' : x ++ (S ++ u) = (opener ++ (g ++ tail)) ++ rem := by
    rw [heq]
    simp [List.append_assoc]
  rcases List.append_eq_append_iff.1 heq' with ⟨e, hw0, hSu⟩ | ⟨e, hx2, hrem⟩
  · by_cases hene : e = []
    · subst hene
      refine ⟨opener ++ (g ++ tail), [], ?_, ?_, hw0ne⟩
      · rw [List.append_nil] at hw0
        rw [List.append_nil]
        exact hw0.symm
      · rw [List.nil_append]
        rw [List.nil_append] at hSu
        exact hSu.symm
    · exfalso
      have hk1 : 1 ≤ e.length := by
        cases e with
        | nil => exact absurd rfl hene
        | cons a b => simp
      by_cases hkt : e.length ≤ tail.length
      · -- the overlap lies inside the final literal
        obtain ⟨t₁, htail, hx3⟩ := suffix_split_right (A := opener ++ g) (B := tail)
          (show (opener ++ g) ++ tail = x ++ e by rw [List.append_assoc]; exact hw0) hkt
        have hdrop : tail.drop (tail.length - e.length) = e := by
          have hlen : t₁.length = tail.length - e.length := by
            have := congrArg List.length htail
            simp only [List.length_append] at this
            omega
          rw [← hlen, htail, List.drop_left]
        have hetake : e = S.take e.length :=
          prefix_take_of_append hSu (le_trans hkt htlen)
        exact hc1 e.length hk1 hkt (by rw [hdrop, ← hetake])
      · -- the overlap reaches past the literal
        have hkt' : tail.length ≤ e.length := Nat.le_of_not_le hkt
        obtain ⟨e₂, he2, hog⟩ := mid_split_right (g := opener ++ g)
          (show (opener ++ g) ++ tail = x ++ e by rw [List.append_assoc]; exact hw0) hkt'
        have he2len : 1 ≤ e₂.length := by
          have := congrArg List.length he2
          simp only [List.length_append] at this
          omega
        have hSu2 : S ++ u = e₂ ++ (tail ++ rem) := by
          rw [hSu, he2]
          simp [List.append_assoc]
        by_cases hkg : e₂.length ≤ g.length
        · -- the overlap starts inside the group
          obtain ⟨g₁, hg1, hx4⟩ := suffix_split_right (B := g) hog hkg
          have he2ok : ∀ c ∈ e₂, ok c = true := fun c hc =>
            hgok c (by rw [hg1]; exact List.mem_append_right _ hc)
          by_cases hgS : e₂.length ≤ S.length
          · have he2take : e₂ = S.take e₂.length := prefix_take_of_append hSu2 hgS
            have hallok : (S.take e₂.length).all ok = true := by
              rw [List.all_eq_true]
              intro c hc
              exact he2ok c (by rw [he2take]; exact hc)
            have hseg : segEq S e₂.length tail = true := by
              have hdrop2 : S.drop e₂.length ++ u = tail ++ rem := by
                have h5 := congrArg (List.drop e₂.length) hSu2
                rw [drop_append_of_le hgS, List.drop_left] at h5
                exact h5
              have h6 := congrArg
                (List.take (min tail.length (S.length - e₂.length))) hdrop2
              rw [take_append_of_le (by
                    rw [List.length_drop]
                    exact Nat.min_le_right _ _),
                  take_append_of_le (Nat.min_le_left _ _)] at h6
              simp only [segEq, decide_eq_true_eq]
              exact h6
            exact hc2 e₂.length he2len hgS ⟨hallok, hseg⟩
          · have hSle : S.length ≤ e₂.length := Nat.le_of_not_le hgS
            have hStake : S = e₂.take S.length :=
              prefix_take_of_append hSu2.symm hSle
            have hallok : S.all ok = true := by
              rw [List.all_eq_true]
              intro c hc
              refine he2ok c ?_
              have : c ∈ e₂.take S.length := by rw [← hStake]; exact hc
              exact List.mem_of_mem_take this
            refine hc2 S.length ?_ le_rfl ⟨by simpa using hallok, segEq_self_len S tail⟩
            have ho1 : 1 ≤ opener.length := by
              cases opener with
              | nil => exact absurd rfl hop
              | cons a b => simp
            omega
        · -- the overlap starts inside the opener
          have hkg' : g.length < e₂.length := Nat.lt_of_not_le hkg
          obtain ⟨e₃, he3, hoe⟩ := mid_split_right (g := opener) hog hkg'.le
          have he3len : 1 ≤ e₃.length := by
            have := congrArg List.length he3
            simp only [List.length_append] at this
            omega
          have he3lt : e₃.length < opener.length := by
            have := congrArg List.length hoe
            simp only [List.length_append] at this
            have hxlen : 1 ≤ x.length := by
              cases x with
              | nil => exact absurd rfl hx
              | cons a b => simp
            omega
          have hSu3 : S ++ u = e₃ ++ (g ++ (tail ++ rem)) := by
            rw [hSu2, he3]
            simp [List.append_assoc]
          have he3take : e₃ = S.take e₃.length :=
            prefix_take_of_append hSu3 (le_trans (Nat.le_of_lt he3lt) holen)
          have hodrop : opener.drop (opener.length - e₃.length) = e₃ := by
            have hlen : x.length = opener.length - e₃.length := by
              have := congrArg List.length hoe
              simp only [List.length_append] at this
              omega
            rw [← hlen, hoe, List.drop_left]
          exact hc3 e₃.length he3len he3lt (by rw [hodrop, ← he3take])
  · refine ⟨opener ++ (g ++ tail), e, hx2, ?_, hw0ne⟩
    rw [hrem]
    simp [List.append_assoc]

theorem shieldCheckBExtra_parts {mid S : Str} {ok1 : Char → Bool}
    (h : shieldCheckBExtra ok1 mid S = true) :
    (∀ ms, 1 ≤ ms → ms ≤ mid.length → mid.drop (mid.length - ms) ≠ S.take ms) ∧
    (∀ gs, 1 ≤ gs → gs ≤ S.length →
      ¬((S.take gs).all ok1 = true ∧ segEq S gs mid = true)) := by
  unfold shieldCheckBExtra at h
  simp only [Bool.and_eq_true] at h
  obtain ⟨h1, h2⟩ := h
  refine ⟨?_, ?_⟩
  · intro ms hm1 hm2
    have := all_range_skip0 h1 hm1 (by omega)
    exact bne_iff_ne.1 this
  · intro gs hg1 hg2 hc
    have := all_range_skip0 h2 hg1 (by omega)
    rw [hc.1, hc.2] at this
    simp at this

theorem shieldB_core {opener mid tail S x u g1 g2 rem : Str} {ok1 ok2 : Char → Bool}
    (hchk : shieldCheckA opener ok2 tail S = true)
    (hchk2 : shieldCheckBExtra ok1 mid S = true)
    (hop : opener ≠ []) (holen : opener.length ≤ S.length)
    (htlen : tail.length ≤ S.length) (hmlen : mid.length ≤ S.length) (hx : x ≠ [])
    (heq : x ++ (S ++ u) = opener ++ (g1 ++ (mid ++ (g2 ++ (tail ++ rem)))))
    (hg1ok : ∀ c ∈ g1, ok1 c = true) (hg2ok : ∀ c ∈ g2, ok2 c = true) :
    ∃ w x', x = w ++ x' ∧ rem = x' ++ S ++ u ∧ w ≠ [] := by
  obtain ⟨hc1, hc2, hc3⟩ := shieldCheckA_parts hchk
  obtain ⟨hm1, hm2⟩ := shieldCheckBExtra_parts hchk2
  have hw0ne : opener ++ (g1 ++ (mid ++ (g2 ++ tail))) ≠ [] := by simp [hop]
  have heq' : x ++ (S ++ u) = (opener ++ (g1 ++ (mid ++ (g2 ++ tail)))) ++ rem := by
    rw [heq]
    simp [List.append_assoc]
  rcases List.append_eq_append_iff.1 heq' with ⟨e, hw0, hSu⟩ | ⟨e, hx2, hrem⟩
  · by_cases hene : e = []
    · subst hene
      refine ⟨opener ++ (g1 ++ (mid ++ (g2 ++ tail))), [], ?_, ?_, hw0ne⟩
      · rw [List.append_nil] at hw0
        rw [List.append_nil]
        exact hw0.symm
      · rw [List.nil_append]
        rw [List.nil_append] at hSu
        exact hSu.symm
    · exfalso
      have hk1 : 1 ≤ e.length := by
        cases e with
        | nil => exact absurd rfl hene
        | cons a b => simp
      by_cases hkt : e.length ≤ tail.length
      · obtain ⟨t₁, htail, hx3⟩ :=
          suffix_split_right (A := opener ++ g1 ++ mid ++ g2) (B := tail)
            (show (opener ++ g1 ++ mid ++ g2) ++ tail = x ++ e by
              rw [← hw0]; simp [List.append_assoc]) hkt
        have hdrop : tail.drop (tail.length - e.length) = e := by
          have hlen : t₁.length = tail.length - e.length := by
            have := congrArg List.length htail
            simp only [List.length_append] at this
            omega
          rw [← hlen, htail, List.drop_left]
        have hetake : e = S.take e.length :=
          prefix_take_of_append hSu (le_trans hkt htlen)
        exact hc1 e.length hk1 hkt (by rw [hdrop, ← hetake])
      · have hkt' : tail.length ≤ e.length := Nat.le_of_not_le hkt
        obtain ⟨e₂, he2, hog⟩ := mid_split_right (g := opener ++ g1 ++ mid ++ g2)
          (show (opener ++ g1 ++ mid ++ g2) ++ tail = x ++ e by
            rw [← hw0]; simp [List.append_assoc]) hkt'
        have he2len : 1 ≤ e₂.length := by
          have := congrArg List.length he2
          simp only [List.length_append] at this
          omega
        have hSu2 : S ++ u = e₂ ++ (tail ++ rem) := by
          rw [hSu, he2]
          simp [List.append_assoc]
        by_cases hkg : e₂.length ≤ g2.length
        · obtain ⟨g₁', hg1', hx4⟩ :=
            suffix_split_right (A := opener ++ g1 ++ mid) (B := g2)
              (show (opener ++ g1 ++ mid) ++ g2 = x ++ e₂ by
                rw [← hog]) hkg
          have he2ok : ∀ c ∈ e₂, ok2 c = true := fun c hc =>
            hg2ok c (by rw [hg1']; exact List.mem_append_right _ hc)
          by_cases hgS : e₂.length ≤ S.length
          · have he2take : e₂ = S.take e₂.length := prefix_take_of_append hSu2 hgS
            have hallok : (S.take e₂.length).all ok2 = true := by
              rw [List.all_eq_true]
              intro c hc
              exact he2ok c (by rw [he2take]; exact hc)
            have hseg : segEq S e₂.length tail = true := by
              have hdrop2 : S.drop e₂.length ++ u = tail ++ rem := by
                have h5 := congrArg (List.drop e₂.length) hSu2
                rw [drop_append_of_le hgS, List.drop_left] at h5
                exact h5
              have h6 := congrArg
                (List.take (min tail.length (S.length - e₂.length))) hdrop2
              rw [take_append_of_le (by
                    rw [List.length_drop]
                    exact Nat.min_le_right _ _),
                  take_append_of_le (Nat.min_le_left _ _)] at h6
              simp only [segEq, decide_eq_true_eq]
              exact h6
            exact hc2 e₂.length he2len hgS ⟨hallok, hseg⟩
          · have hSle : S.length ≤ e₂.length := Nat.le_of_not_le hgS
            have hStake : S = e₂.take S.length :=
              prefix_take_of_append hSu2.symm hSle
            have hallok : S.all ok2 = true := by
              rw [List.all_eq_true]
              intro c hc
              refine he2ok c ?_
              have : c ∈ e₂.take S.length := by rw [← hStake]; exact hc
              exact List.mem_of_mem_take this
            refine hc2 S.length ?_ le_rfl ⟨by simpa using hallok, segEq_self_len S tail⟩
            have ho1 : 1 ≤ opener.length := by
              cases opener with
              | nil => exact absurd rfl hop
              | cons a b => simp
            omega
        · have hkg' : g2.length < e₂.length := Nat.lt_of_not_le hkg
          obtain ⟨e₃, he3, hog3⟩ := mid_split_right (g := opener ++ g1 ++ mid)
            (show (opener ++ g1 ++ mid) ++ g2 = x ++ e₂ by
              rw [← hog]) hkg'.le
          have he3len : 1 ≤ e₃.length := by
            have := congrArg List.length he3
            simp only [List.length_append] at this
            omega
          have hSu3 : S ++ u = e₃ ++ (g2 ++ (tail ++ rem)) := by
            rw [hSu2, he3]
            simp [List.append_assoc]
          by_cases hkm : e₃.length ≤ mid.length
          · obtain ⟨m₁, hmid, hx5⟩ := suffix_split_right (A := opener ++ g1) (B := mid)
              (show (opener ++ g1) ++ mid = x ++ e₃ by
                rw [← hog3]) hkm
            have hdropm : mid.drop (mid.length - e₃.length) = e₃ := by
              have hlen : m₁.length = mid.length - e₃.length := by
                have := congrArg List.length hmid
                simp only [List.length_append] at this
                omega
              rw [← hlen, hmid, List.drop_left]
            have hetake : e₃ = S.take e₃.length :=
              prefix_take_of_append hSu3 (le_trans hkm hmlen)
            exact hm1 e₃.length he3len hkm (by rw [hdropm, ← hetake])
          · have hkm' : mid.length ≤ e₃.length := Nat.le_of_not_le hkm
            obtain ⟨e₄, he4, hog4⟩ := mid_split_right (g := opener ++ g1)
              (show (opener ++ g1) ++ mid = x ++ e₃ by
                rw [← hog3]) hkm'
            have he4len : 1 ≤ e₄.length := by
              have := congrArg List.length he4
              simp only [List.length_append] at this
              omega
            have hSu4 : S ++ u = e₄ ++ (mid ++ (g2 ++ (tail ++ rem))) := by
              rw [hSu3, he4]
              simp [List.append_assoc]
            by_cases hkg1 : e₄.length ≤ g1.length
            · obtain ⟨g₁'', hg1'', hx6⟩ := suffix_split_right (A := opener) (B := g1)
                hog4 hkg1
              have he4ok : ∀ c ∈ e₄, ok1 c = true := fun c hc =>
                hg1ok c (by rw [hg1'']; exact List.mem_append_right _ hc)
              by_cases hgS : e₄.length ≤ S.length
              · have he4take : e₄ = S.take e₄.length := prefix_take_of_append hSu4 hgS
                have hallok : (S.take e₄.length).all ok1 = true := by
                  rw [List.all_eq_true]
                  intro c hc
                  exact he4ok c (by rw [he4take]; exact hc)
                have hseg : segEq S e₄.length mid = true := by
                  have hdrop2 : S.drop e₄.length ++ u = mid ++ (g2 ++ (tail ++ rem)) := by
                    have h5 := congrArg (List.drop e₄.length) hSu4
                    rw [drop_append_of_le hgS, List.drop_left] at h5
                    exact h5
                  have h6 := congrArg
                    (List.take (min mid.length (S.length - e₄.length))) hdrop2
                  rw [take_append_of_le (by
                        rw [List.length_drop]
                        exact Nat.min_le_right _ _),
                      take_append_of_le (Nat.min_le_left _ _)] at h6
                  simp only [segEq, decide_eq_true_eq]
                  exact h6
                exact hm2 e₄.length he4len hgS ⟨hallok, hseg⟩
              · have hSle : S.length ≤ e₄.length := Nat.le_of_not_le hgS
                have hStake : S = e₄.take S.length :=
                  prefix_take_of_append hSu4.symm hSle
                have hallok : S.all ok1 = true := by
                  rw [List.all_eq_true]
                  intro c hc
                  refine he4ok c ?_
                  have : c ∈ e₄.take S.length := by rw [← hStake]; exact hc
                  exact List.mem_of_mem_take this
                refine hm2 S.length ?_ le_rfl
                  ⟨by simpa using hallok, segEq_self_len S mid⟩
                have ho1 : 1 ≤ opener.length := by
                  cases opener with
                  | nil => exact absurd rfl hop
                  | cons a b => simp
                omega
            · have hkg1' : g1.length < e₄.length := Nat.lt_of_not_le hkg1
              obtain ⟨e₅, he5, hoe⟩ := mid_split_right (g := opener) hog4 hkg1'.le
              have he5len : 1 ≤ e₅.length := by
                have := congrArg List.length he5
                simp only [List.length_append] at this
                omega
              have he5lt : e₅.length < opener.length := by
                have := congrArg List.length hoe
                simp only [List.length_append] at this
                have hxlen : 1 ≤ x.length := by
                  cases x with
                  | nil => exact absurd rfl hx
                  | cons a b => simp
                omega
              have hSu5 : S ++ u = e₅ ++ (g1 ++ (mid ++ (g2 ++ (tail ++ rem)))) := by
                rw [hSu4, he5]
                simp [List.append_assoc]
              have he5take : e₅ = S.take e₅.length :=
                prefix_take_of_append hSu5 (le_trans (Nat.le_of_lt he5lt) holen)
              have hodrop : opener.drop (opener.length - e₅.length) = e₅ := by
                have hlen : x.length = opener.length - e₅.length := by
                  have := congrArg List.length hoe
                  simp only [List.length_append] at this
                  omega
                rw [← hlen, hoe, List.drop_left]
              exact hc3 e₅.length he5len he5lt (by rw [hodrop, ← he5take])
  · refine ⟨opener ++ (g1 ++ (mid ++ (g2 ++ tail))), e, hx2, ?_, hw0ne⟩
    rw [hrem]
    simp [List.append_assoc]

theorem noTailOverlap_parts {pat S : Str} (h : noTailOverlap pat S = true) :
    ∀ k, 1 ≤ k → k < pat.length → pat.drop (pat.length - k) ≠ S.take k := by
  intro k h1 h2
  exact bne_iff_ne.1 (all_range_skip0 h h1 h2)

theorem shields_lit {pat rep S : Str} (hpne : pat ≠ [])
    (h1 : noTailOverlap pat S = true) (hlen : pat.length ≤ S.length) :
    Shields (litMatcher pat rep) S := by
  intro x u r rem hx h
  obtain ⟨hs, _⟩ := litMatcher_some_nf h
  rcases List.append_eq_append_iff.1
      (show x ++ (S ++ u) = pat ++ rem by rw [← List.append_assoc]; exact hs) with
    ⟨e, hp, hSu⟩ | ⟨e, hx2, hrem⟩
  · by_cases hene : e = []
    · subst hene
      rw [List.append_nil] at hp
      refine ⟨pat, [], by rw [List.append_nil]; exact hp.symm, ?_, hpne⟩
      rw [List.nil_append]
      rw [List.nil_append] at hSu
      exact hSu.symm
    · exfalso
      have hk1 : 1 ≤ e.length := by
        cases e with
        | nil => exact absurd rfl hene
        | cons a b => simp
      have hklt : e.length < pat.length := by
        have := congrArg List.length hp
        simp only [List.length_append] at this
        have hxlen : 1 ≤ x.length := by
          cases x with
          | nil => exact absurd rfl hx
          | cons a b => simp
        omega
      have hdrop : pat.drop (pat.length - e.length) = e := by
        have hlen2 : x.length = pat.length - e.length := by
          have := congrArg List.length hp
          simp only [List.length_append] at this
          omega
        rw [← hlen2, hp, List.drop_left]
      have hetake : e = S.take e.length :=
        prefix_take_of_append hSu (le_trans hklt.le hlen)
      exact noTailOverlap_parts h1 e.length hk1 hklt (by rw [hdrop, ← hetake])
  · refine ⟨pat, e, hx2, ?_, hpne⟩
    rw [hrem]
    simp [List.append_assoc]

theorem shieldA_flat {opener tail S x u g rem : Str} {ok : Char → Bool}
    (hchk : shieldCheckA opener ok tail S = true)
    (hop : opener ≠ []) (holen : opener.length ≤ S.length)
    (htlen : tail.length ≤ S.length) (hx : x ≠ [])
    (heq : x ++ S ++ u = opener ++ g ++ tail ++ rem)
    (hgok : ∀ c ∈ g, ok c = true) :
    ∃ w x', x = w ++ x' ∧ rem = x' ++ S ++ u ∧ w ≠ [] :=
  shieldA_core hchk hop holen htlen hx
    (by simpa only [List.append_assoc] using heq) hgok

theorem shieldB_flat {opener mid tail S x u g1 g2 rem : Str} {ok1 ok2 : Char → Bool}
    (hchk : shieldCheckA opener ok2 tail S = true)
    (hchk2 : shieldCheckBExtra ok1 mid S = true)
    (hop : opener ≠ []) (holen : opener.length ≤ S.length)
    (htlen : tail.length ≤ S.length) (hmlen : mid.length ≤ S.length) (hx : x ≠ [])
    (heq : x ++ S ++ u = opener ++ g1 ++ mid ++ g2 ++ tail ++ rem)
    (hg1ok : ∀ c ∈ g1, ok1 c = true) (hg2ok : ∀ c ∈ g2, ok2 c = true) :
    ∃ w x', x = w ++ x' ∧ rem = x' ++ S ++ u ∧ w ≠ [] :=
  shieldB_core hchk hchk2 hop holen htlen hmlen hx
    (by simpa only [List.append_assoc] using heq) hg1ok hg2ok

theorem shields_p1_errLine : Shields p1 errLine := by
  intro x u r rem hx h
  obtain ⟨g, hs, _, hgok, _⟩ := matchA_some_nf h
  exact shieldA_flat (by decide) (by decide) (by decide) (by decide) hx hs hgok

theorem shields_p2_errLineR : Shields p2 errLineR := by
  intro x u r rem hx h
  obtain ⟨g, hs, _, hgok, _⟩ := matchA_some_nf h
  exact shieldA_flat (by decide) (by decide) (by decide) (by decide) hx hs hgok

theorem shields_p3_errLineR : Shields p3 errLineR := by
  intro x u r rem hx h
  obtain ⟨g1, g2, hs, _, _, hok1, hok2, _⟩ := matchB_some_nf h
  exact shieldB_flat (by decide) (by decide) (by decide) (by decide) (by decide)
    (by decide) hx hs hok1 hok2

theorem shields_p4_errLineR : Shields p4 errLineR := by
  intro x u r rem hx h
  obtain ⟨g, hs, _, hgok, _⟩ := matchA_some_nf h
  exact shieldA_flat (by decide) (by decide) (by decide) (by decide) hx hs hgok

theorem shields_p5_errLineR : Shields p5 errLineR := by
  intro x u r rem hx h
  obtain ⟨g, hs, _, hgok, _⟩ := matchA_some_nf h
  exact shieldA_flat (by decide) (by decide) (by decide) (by decide) hx hs hgok

theorem shields_p6_errLineR : Shields p6 errLineR := by
  intro x u r rem hx h
  obtain ⟨c, g, hcd, hs, _, hgok, _⟩ := p6_some_nf h
  rcases hcd with hc | hc
  · subst hc
    exact shieldA_flat (by decide) (by decide) (by decide) (by decide) hx hs hgok
  · subst hc
    exact shieldA_flat (by decide) (by decide) (by decide) (by decide) hx hs hgok

theorem shields_p7_errLineR : Shields p7 errLineR := by
  intro x u r rem hx h
  obtain ⟨g1, g2, hs, _, _, hok1, hok2, _⟩ := matchB_some_nf h
  exact shieldB_flat (by decide) (by decide) (by decide) (by decide) (by decide)
    (by decide) hx hs hok1 hok2

theorem shields_p8_errLineR : Shields p8 errLineR := by
  intro x u r rem hx h
  obtain ⟨g1, g2, hs, _, _, hok1, hok2, _⟩ := matchB_some_nf h
  exact shieldB_flat (by decide) (by decide) (by decide) (by decide) (by decide)
    (by decide) hx hs hok1 hok2

theorem shields_p9_errLineR : Shields p9 errLineR := by
  intro x u r rem hx h
  obtain ⟨g, hs, _, hgok, _⟩ := matchA_some_nf h
  exact shieldA_flat (by decide) (by decide) (by decide) (by decide) hx hs hgok

/-! ### The protected scan -/

theorem substFuel_congr {m : Matcher} (hm : Consumes m) :
    ∀ f1 f2 s, s.length ≤ f1 → s.length ≤ f2 →
      substFuel m f1 s = substFuel m f2 s := by
  intro f1
  induction f1 with
  | zero =>
    intro f2 s h1 _
    have hs : s = [] := List.length_eq_zero.1 (Nat.le_zero.1 h1)
    subst hs
    cases f2 <;> rfl
  | succ n ih =>
    intro f2 s h1 h2
    cases s with
    | nil => cases f2 <;> rfl
    | cons c rest =>
      cases f2 with
      | zero => simp at h2
      | succ m2 =>
        simp only [substFuel]
        cases hmatch : m (c :: rest) with
        | none =>
          rw [ih m2 rest (by simp at h1; omega) (by simp at h2; omega)]
        | some p =>
          obtain ⟨r, rem⟩ := p
          obtain ⟨w, hw, hwne, _⟩ := hm (c :: rest) r rem hmatch
          have hwl : 1 ≤ w.length := by
            cases w with
            | nil => exact absurd rfl hwne
            | cons a b => simp
          have hreml := congrArg List.length hw
          simp only [List.length_append, List.length_cons] at hreml
          dsimp only
          rw [ih m2 rem (by simp at h1; omega) (by simp at h2; omega)]

theorem substFuel_eq_subst {m : Matcher} (hm : Consumes m) {f : Nat} {s : Str}
    (hf : s.length ≤ f) : substFuel m f s = subst m s :=
  substFuel_congr hm f s.length s hf le_rfl

theorem substFuel_copy_all {m : Matcher} (hm : Consumes m) :
    ∀ (T : Str) (u : Str) (f : Nat), (T ++ u).length ≤ f →
      (∀ t, t <:+ T → t ≠ [] → m (t ++ u) = none) →
      substFuel m f (T ++ u) = T ++ subst m u := by
  intro T
  induction T with
  | nil =>
    intro u f hf _
    rw [List.nil_append, List.nil_append]
    exact substFuel_eq_subst hm (by simpa using hf)
  | cons c T' ih =>
    intro u f hf hsk
    cases f with
    | zero => simp at hf
    | succ fn =>
      have hnone : m (c :: (T' ++ u)) = none :=
        hsk (c :: T') (List.suffix_refl _) (by simp)
      show substFuel m (fn + 1) (c :: (T' ++ u)) = (c :: T') ++ subst m u
      simp only [substFuel, hnone]
      rw [ih u fn (by simp at hf ⊢; omega)
        (fun t ht htne => hsk t (ht.trans (List.suffix_cons c T')) htne)]
      rfl

theorem substFuel_protect {m : Matcher} {S Rout : Str} (hm : Consumes m)
    (hsh : Shields m S)
    (hbase : ∀ u f, (S ++ u).length ≤ f →
      substFuel m f (S ++ u) = Rout ++ subst m u) :
    ∀ (n : Nat) (x u : Str) (f : Nat), x.length ≤ n → (x ++ (S ++ u)).length ≤ f →
      ∃ a, substFuel m f (x ++ (S ++ u)) = a ++ (Rout ++ subst m u) ∧
        (x = [] → a = []) ∧
        (x ≠ [] → x.getLast? = some nl → a ≠ [] ∧ a.getLast? = some nl) := by
  intro n
  induction n with
  | zero =>
    intro x u f hx hf
    have hxe : x = [] := List.length_eq_zero.1 (Nat.le_zero.1 hx)
    subst hxe
    refine ⟨[], ?_, fun _ => rfl, fun hne _ => absurd rfl hne⟩
    rw [List.nil_append, List.nil_append, hbase u f (by simpa using hf)]
  | succ n ih =>
    intro x u f hx hf
    cases x with
    | nil =>
      refine ⟨[], ?_, fun _ => rfl, fun hne _ => absurd rfl hne⟩
      rw [List.nil_append, List.nil_append, hbase u f (by simpa using hf)]
    | cons c x₀ =>
      cases f with
      | zero => simp at hf
      | succ fn =>
        cases hmatch : m ((c :: x₀) ++ (S ++ u)) with
        | none =>
          have hmatch' : m (c :: (x₀ ++ (S ++ u))) = none := hmatch
          obtain ⟨a₀, ha₀, ha₀nil, ha₀nl⟩ := ih x₀ u fn (by simp at hx; omega)
            (by simp at hf ⊢; omega)
          refine ⟨c :: a₀, ?_, by simp, ?_⟩
          · show substFuel m (fn + 1) (c :: (x₀ ++ (S ++ u))) =
              (c :: a₀) ++ (Rout ++ subst m u)
            simp only [substFuel, hmatch']
            rw [ha₀]
            rfl
          · intro _ hlast
            cases hx0 : x₀ with
            | nil =>
              subst hx0
              have ha₀e : a₀ = [] := ha₀nil rfl
              subst ha₀e
              have hc : c = nl := by
                simpa [List.getLast?] using hlast
              subst hc
              exact ⟨by simp, by simp [List.getLast?]⟩
            | cons d x₁ =>
              subst hx0
              have hlast' : (d :: x₁).getLast? = some nl := by
                rwa [List.getLast?_cons_cons] at hlast
              obtain ⟨hne, hnl2⟩ := ha₀nl (by simp) hlast'
              exact ⟨by simp, by rw [getLast?_cons_of_ne hne]; exact hnl2⟩
        | some p =>
          obtain ⟨r, rem⟩ := p
          obtain ⟨w, x', hxw, hrem, hwne⟩ := hsh (c :: x₀) u r rem (by simp)
            (by rw [List.append_assoc]; exact hmatch)
          obtain ⟨w₂, hw₂, _, hw₂nl⟩ := hm ((c :: x₀) ++ (S ++ u)) r rem hmatch
          have hww : w₂ = w := by
            have h1 : w₂ ++ rem = (c :: x₀) ++ (S ++ u) := hw₂.symm
            have h2 : w ++ rem = (c :: x₀) ++ (S ++ u) := by
              rw [hxw, hrem]
              simp [List.append_assoc]
            exact List.append_cancel_right (h1.trans h2.symm)
          have hx'len : x'.length ≤ n := by
            have := congrArg List.length hxw
            simp only [List.length_append, List.length_cons] at this
            have hwl : 1 ≤ w.length := by
              cases w with
              | nil => exact absurd rfl hwne
              | cons a b => simp
            simp only [List.length_cons] at hx
            omega
          have hremlen : (x' ++ (S ++ u)).length ≤ fn := by
            have h3 := congrArg List.length hxw
            simp only [List.length_append, List.length_cons] at h3
            have hwl : 1 ≤ w.length := by
              cases w with
              | nil => exact absurd rfl hwne
              | cons a b => simp
            simp only [List.length_append, List.length_cons] at hf ⊢
            omega
          obtain ⟨a', ha', ha'nil, ha'nl⟩ := ih x' u fn hx'len hremlen
          refine ⟨r ++ a', ?_, by simp, ?_⟩
          · have hmatch' : m (c :: (x₀ ++ (S ++ u))) = some (r, rem) := hmatch
            show substFuel m (fn + 1) (c :: (x₀ ++ (S ++ u))) =
              (r ++ a') ++ (Rout ++ subst m u)
            simp only [substFuel, hmatch']
            have hrem' : rem = x' ++ (S ++ u) := by rw [hrem, List.append_assoc]
            rw [hrem', ha']
            simp [List.append_assoc]
          · intro _ hlast
            by_cases hx'nil : x' = []
            · exfalso
              subst hx'nil
              rw [List.append_nil] at hxw
              rw [hww, ← hxw] at hw₂nl
              exact hw₂nl hlast
            · have hlast' : x'.getLast? = some nl := by
                rw [hxw, List.getLast?_append_of_ne_nil _ hx'nil] at hlast
                exact hlast
              obtain ⟨hne, hnl2⟩ := ha'nl hx'nil hlast'
              exact ⟨append_ne_nil_right hne,
                by rw [List.getLast?_append_of_ne_nil _ hne]; exact hnl2⟩

theorem subst_protect {m : Matcher} {S Rout : Str} (hm : Consumes m)
    (hsh : Shields m S)
    (hbase : ∀ u f, (S ++ u).length ≤ f →
      substFuel m f (S ++ u) = Rout ++ subst m u)
    (x u : Str) (hx : EndsNl x) :
    ∃ a, subst m (x ++ (S ++ u)) = a ++ (Rout ++ subst m u) ∧ EndsNl a := by
  obtain ⟨a, ha, hanil, hanl⟩ :=
    substFuel_protect hm hsh hbase x.length x u (x ++ (S ++ u)).length le_rfl le_rfl
  refine ⟨a, ha, ?_⟩
  rcases hx with hxe | hxlast
  · exact Or.inl (hanil hxe)
  · by_cases hxe : x = []
    · exact Or.inl (hanil hxe)
    · exact Or.inr (hanl hxe hxlast).2

theorem hbase_skip {m : Matcher} {S : Str} (hm : Consumes m) (hsk : SkipsIn m S) :
    ∀ u f, (S ++ u).length ≤ f → substFuel m f (S ++ u) = S ++ subst m u :=
  fun u f hf => substFuel_copy_all hm S u f hf (fun t ht htne => hsk t u ht htne)

theorem hbase_match {m : Matcher} {S R : Str} (hm : Consumes m) (hS : S ≠ [])
    (hmt : MatchesAt m S R) :
    ∀ u f, (S ++ u).length ≤ f → substFuel m f (S ++ u) = R ++ subst m u := by
  intro u f hf
  cases S with
  | nil => exact absurd rfl hS
  | cons s0 S' =>
    cases f with
    | zero => simp at hf
    | succ fn =>
      have hm0 : m (s0 :: (S' ++ u)) = some (R, u) := hmt u
      show substFuel m (fn + 1) (s0 :: (S' ++ u)) = R ++ subst m u
      simp only [substFuel, hm0]
      rw [substFuel_eq_subst hm (by simp at hf; omega)]

/-! ### Computing pattern 1 at the scenario line -/

theorem greedyA_step_fail {tail rest : Str} {c : Char} {rg : Str}
    (h : tail.isPrefixOf rest = false) :
    greedyA tail (c :: rg) rest = greedyA tail rg (c :: rest) := by
  rw [greedyA, if_neg (by rw [h]; exact Bool.false_ne_true)]

theorem greedyA_hit {tail : Str} (c : Char) (rg u : Str) :
    greedyA tail (c :: rg) (tail ++ u) = some ((c :: rg).reverse, u) := by
  rw [greedyA, if_pos (isPrefixOf_append_self _ _), List.drop_left]

theorem p1_match : MatchesAt p1 errLine errLineR := by
  intro u
  have htail : ":', error);".toList = ':' :: sq :: ", error);".toList := by decide
  have h1 : errLine ++ u = "console.error('".toList ++
      ("Failed to save:".toList ++ (sq :: (", error);".toList ++ u))) := by
    have h0 : errLine = "console.error('".toList ++
        ("Failed to save:".toList ++ (sq :: ", error);".toList)) := by decide
    rw [h0]
    simp [List.append_assoc]
  show p1 (errLine ++ u) = some (errLineR, u)
  unfold p1 matchA
  have hp : ("console.error('".toList).isPrefixOf (errLine ++ u) = true := by
    rw [h1]
    exact isPrefixOf_append_self _ _
  rw [if_pos hp]
  dsimp only
  have hdropO : (errLine ++ u).drop ("console.error('".toList).length =
      "Failed to save:".toList ++ (sq :: (", error);".toList ++ u)) := by
    rw [h1]
    exact List.drop_left _ _
  rw [hdropO]
  have htake : ("Failed to save:".toList ++
      (sq :: (", error);".toList ++ u))).takeWhile okQ = "Failed to save:".toList :=
    takeWhile_append_eq _ (by decide) (by decide)
  rw [htake, List.drop_left]
  have hrev : ("Failed to save:".toList).reverse =
      ':' :: ("Failed to save".toList).reverse := by decide
  have hfail : (":', error);".toList).isPrefixOf
      (sq :: (", error);".toList ++ u)) = false := by
    rw [htail]
    exact isPrefixOf_cons_of_ne (by decide) _ _
  rw [hrev, greedyA_step_fail hfail]
  have hrest : (':' :: (sq :: (", error);".toList ++ u))) =
      ":', error);".toList ++ u := by
    rw [htail]
    simp
  rw [hrest]
  have hrev2 : ("Failed to save".toList).reverse =
      'e' :: ("Failed to sav".toList).reverse := by decide
  rw [hrev2, greedyA_hit]
  dsimp only
  have hg : ('e' :: ("Failed to sav".toList).reverse).reverse =
      "Failed to save".toList := by decide
  rw [hg]
  have hfin : "logger.error('".toList ++ "Failed to save".toList ++
      "', error instanceof Error ? error : new Error(String(error)));".toList =
      errLineR := by decide
  rw [hfin]

/-! ### Head-newline preservation and per-pattern instances -/

theorem prefixOf_head_ne {p s : Str} {a b : Char} (hp : p.head? = some a)
    (hs : s.head? = some b) (hne : (a == b) = false) : p.isPrefixOf s = false := by
  cases p with
  | nil => simp at hp
  | cons c cp =>
    cases s with
    | nil => simp at hs
    | cons d ds =>
      have hc : c = a := by simpa using hp
      subst hc
      have hd : d = b := by simpa using hs
      subst hd
      exact isPrefixOf_cons_of_ne hne _ _

theorem subst_cons_none {m : Matcher} {c : Char} {t : Str} (h : m (c :: t) = none) :
    subst m (c :: t) = c :: subst m t := by
  show substFuel m (t.length + 1) (c :: t) = c :: subst m t
  simp only [substFuel, h]
  rfl

theorem startsNl_subst {m : Matcher} (hnl : ∀ t, m (nl :: t) = none) {q : Str}
    (h : StartsNl q) : StartsNl (subst m q) := by
  rcases h with he | hh
  · subst he
    left
    rfl
  · cases q with
    | nil => left; rfl
    | cons c t =>
      have hc : c = nl := by simpa using hh
      subst hc
      right
      rw [subst_cons_none (hnl t)]
      rfl

theorem p1_consumes : Consumes p1 := matchA_consume (by decide) (by decide)

theorem p2_consumes : Consumes p2 := matchA_consume (by decide) (by decide)

theorem p3_consumes : Consumes p3 := matchB_consume (by decide) (by decide)

theorem p4_consumes : Consumes p4 := matchA_consume (by decide) (by decide)

theorem p5_consumes : Consumes p5 := matchA_consume (by decide) (by decide)

theorem p7_consumes : Consumes p7 := matchB_consume (by decide) (by decide)

theorem p8_consumes : Consumes p8 := matchB_consume (by decide) (by decide)

theorem p9_consumes : Consumes p9 := matchA_consume (by decide) (by decide)

theorem p1_head_nl : ∀ t, p1 (nl :: t) = none := fun _ =>
  matchA_eq_none (prefixOf_head_ne (a := 'c') (b := nl) (by decide) rfl (by decide))

theorem p2_head_nl : ∀ t, p2 (nl :: t) = none := fun _ =>
  matchA_eq_none (prefixOf_head_ne (a := 'c') (b := nl) (by decide) rfl (by decide))

theorem p3_head_nl : ∀ t, p3 (nl :: t) = none := fun _ =>
  matchB_eq_none (prefixOf_head_ne (a := 'c') (b := nl) (by decide) rfl (by decide))

theorem p4_head_nl : ∀ t, p4 (nl :: t) = none := fun _ =>
  matchA_eq_none (prefixOf_head_ne (a := 'c') (b := nl) (by decide) rfl (by decide))

theorem p5_head_nl : ∀ t, p5 (nl :: t) = none := fun _ =>
  matchA_eq_none (prefixOf_head_ne (a := 'c') (b := nl) (by decide) rfl (by decide))

theorem p6_head_nl : ∀ t, p6 (nl :: t) = none := fun _ =>
  p6_eq_none (prefixOf_head_ne (a := 'c') (b := nl) (by decide) rfl (by decide))

theorem p7_head_nl : ∀ t, p7 (nl :: t) = none := fun _ =>
  matchB_eq_none (prefixOf_head_ne (a := 'c') (b := nl) (by decide) rfl (by decide))

theorem p8_head_nl : ∀ t, p8 (nl :: t) = none := fun _ =>
  matchB_eq_none (prefixOf_head_ne (a := 'c') (b := nl) (by decide) rfl (by decide))

theorem p9_head_nl : ∀ t, p9 (nl :: t) = none := fun _ =>
  matchA_eq_none (prefixOf_head_ne (a := 'c') (b := nl) (by decide) rfl (by decide))

/-! ### One protected pass, and the emoji passes -/

theorem pass_protect {m : Matcher} {S Rout : Str} (hm : Consumes m)
    (hsh : Shields m S)
    (hbase : ∀ u f, (S ++ u).length ≤ f →
      substFuel m f (S ++ u) = Rout ++ subst m u)
    (hnl : ∀ t, m (nl :: t) = none) {T a q : Str}
    (hT : T = a ++ (S ++ q)) (ha : EndsNl a) (hq : StartsNl q) :
    ∃ a' q', subst m T = a' ++ (Rout ++ q') ∧ EndsNl a' ∧ StartsNl q' := by
  subst hT
  obtain ⟨a', heq, ha'⟩ := subst_protect hm hsh hbase a q ha
  exact ⟨a', subst m q, heq, ha', startsNl_subst hnl hq⟩

theorem stripMarkerOk_parts {pat S : Str} (h : stripMarkerOk pat S = true) :
    pat ≠ [] ∧ pat.getLast? ≠ some nl ∧ noTailOverlap pat S = true ∧
      neverMatchAt pat S = true ∧ pat.length ≤ S.length := by
  rw [stripMarkerOk] at h
  simp only [Bool.and_eq_true] at h
  obtain ⟨⟨⟨⟨h1, h2⟩, h3⟩, h4⟩, h5⟩ := h
  refine ⟨?_, ?_, h3, h4, ?_⟩
  · intro hc
    rw [hc] at h1
    simp at h1
  · intro hc
    rw [hc] at h2
    simp at h2
  · exact of_decide_eq_true h5

theorem strip_fold_protect : ∀ (es : List Str),
    es.all (fun e => stripMarkerOk (sq :: (e ++ [' '])) errLine &&
      stripMarkerOk (bt :: (e ++ [' '])) errLine) = true →
    ∀ a q, EndsNl a → StartsNl q →
    ∃ a' q', es.foldl (fun acc e => stripEmoji e acc) (a ++ (errLine ++ q)) =
      a' ++ (errLine ++ q') ∧ EndsNl a' ∧ StartsNl q' := by
  intro es
  induction es with
  | nil =>
    intro _ a q ha hq
    exact ⟨a, q, rfl, ha, hq⟩
  | cons e es ih =>
    intro hok a q ha hq
    simp only [List.all_cons, Bool.and_eq_true] at hok
    obtain ⟨⟨hok1, hok2⟩, hoks⟩ := hok
    obtain ⟨h1, h2, h3, h4, h5⟩ := stripMarkerOk_parts hok1
    obtain ⟨g1, g2, g3, g4, g5⟩ := stripMarkerOk_parts hok2
    have hm1 : Consumes (litMatcher (sq :: (e ++ [' '])) [sq]) :=
      litMatcher_consume h1 h2
    have hsh1 : Shields (litMatcher (sq :: (e ++ [' '])) [sq]) errLine :=
      shields_lit h1 h3 h5
    have hn1 : ∀ t, litMatcher (sq :: (e ++ [' '])) [sq] (nl :: t) = none :=
      fun _ => litMatcher_eq_none (prefixOf_head_ne (a := sq) (b := nl) rfl rfl
        (by decide))
    obtain ⟨a1, q1, heq1, ha1, hq1⟩ :=
      pass_protect hm1 hsh1 (hbase_skip hm1 (skips_litMatcher h4)) hn1 rfl ha hq
    have hm2 : Consumes (litMatcher (bt :: (e ++ [' '])) [bt]) :=
      litMatcher_consume g1 g2
    have hsh2 : Shields (litMatcher (bt :: (e ++ [' '])) [bt]) errLine :=
      shields_lit g1 g3 g5
    have hn2 : ∀ t, litMatcher (bt :: (e ++ [' '])) [bt] (nl :: t) = none :=
      fun _ => litMatcher_eq_none (prefixOf_head_ne (a := bt) (b := nl) rfl rfl
        (by decide))
    obtain ⟨a2, q2, heq2, ha2, hq2⟩ :=
      pass_protect hm2 hsh2 (hbase_skip hm2 (skips_litMatcher g4)) hn2 heq1 ha1 hq1
    have hse : stripEmoji e (a ++ (errLine ++ q)) = a2 ++ (errLine ++ q2) := heq2
    have hfold : List.foldl (fun acc e => stripEmoji e acc)
        (a ++ (errLine ++ q)) (e :: es) =
        List.foldl (fun acc e => stripEmoji e acc) (a2 ++ (errLine ++ q2)) es :=
      congrArg (fun z => List.foldl (fun acc e => stripEmoji e acc) z es) hse
    obtain ⟨a', q', heq', ha', hq'⟩ := ih hoks a2 q2 ha2 hq2
    exact ⟨a', q', hfold.trans heq', ha', hq'⟩

/-- **C2.** For any input text in which `console.error('Failed to save:',
error);` occurs as a line (preceded by nothing or a newline, followed by
nothing or a newline), `migrate_console_statements` rewrites that line to
`logger.error('Failed to save', error instanceof Error ? error : new
Error(String(error)));`, again sitting on a line of its own, whatever the
surrounding text is. -/
theorem claim_C2 (pre post : Str) (hpre : EndsNl pre) (hpost : StartsNl post) :
    ∃ a b, migrate_console_statements (pre ++ (errLine ++ post)) =
      a ++ (errLineR ++ b) ∧ EndsNl a ∧ StartsNl b := by
  have hok : emojis.all (fun e => stripMarkerOk (sq :: (e ++ [' '])) errLine &&
      stripMarkerOk (bt :: (e ++ [' '])) errLine) = true := by decide
  obtain ⟨a0, q0, h0, ha0, hq0⟩ := strip_fold_protect emojis hok pre post hpre hpost
  have h0' : stripEmojis (pre ++ (errLine ++ post)) = a0 ++ (errLine ++ q0) := h0
  obtain ⟨a1, q1, h1, ha1, hq1⟩ := pass_protect p1_consumes shields_p1_errLine
    (hbase_match p1_consumes (by decide) p1_match) p1_head_nl h0' ha0 hq0
  obtain ⟨a2, q2, h2, ha2, hq2⟩ := pass_protect p2_consumes shields_p2_errLineR
    (hbase_skip p2_consumes (skips_matchA (by decide))) p2_head_nl h1 ha1 hq1
  obtain ⟨a3, q3, h3, ha3, hq3⟩ := pass_protect p3_consumes shields_p3_errLineR
    (hbase_skip p3_consumes (skips_matchB (by decide))) p3_head_nl h2 ha2 hq2
  obtain ⟨a4, q4, h4, ha4, hq4⟩ := pass_protect p4_consumes shields_p4_errLineR
    (hbase_skip p4_consumes (skips_matchA (by decide))) p4_head_nl h3 ha3 hq3
  obtain ⟨a5, q5, h5, ha5, hq5⟩ := pass_protect p5_consumes shields_p5_errLineR
    (hbase_skip p5_consumes (skips_matchA (by decide))) p5_head_nl h4 ha4 hq4
  obtain ⟨a6, q6, h6, ha6, hq6⟩ := pass_protect p6_consume shields_p6_errLineR
    (hbase_skip p6_consume (skips_p6 (by decide))) p6_head_nl h5 ha5 hq5
  obtain ⟨a7, q7, h7, ha7, hq7⟩ := pass_protect p7_consumes shields_p7_errLineR
    (hbase_skip p7_consumes (skips_matchB (by decide))) p7_head_nl h6 ha6 hq6
  obtain ⟨a8, q8, h8, ha8, hq8⟩ := pass_protect p8_consumes shields_p8_errLineR
    (hbase_skip p8_consumes (skips_matchB (by decide))) p8_head_nl h7 ha7 hq7
  obtain ⟨a9, q9, h9, ha9, hq9⟩ := pass_protect p9_consumes shields_p9_errLineR
    (hbase_skip p9_consumes (skips_matchA (by decide))) p9_head_nl h8 ha8 hq8
  exact ⟨a9, q9, h9, ha9, hq9⟩

/-- Witness for C2 at a concrete surrounding text. -/
theorem claim_C2_witness :
    EndsNl "a();\n".toList ∧ StartsNl "\nb();".toList ∧
    ∃ a b, migrate_console_statements ("a();\n".toList ++
        (errLine ++ "\nb();".toList)) =
      a ++ (errLineR ++ b) ∧ EndsNl a ∧ StartsNl b :=
  ⟨Or.inr (by decide), Or.inr (by decide),
    claim_C2 _ _ (Or.inr (by decide)) (Or.inr (by decide))⟩

end MigrateScript
